import Mathlib

/-!
# Verification of the bookmark-kanban extension's core logic

Shallow embedding, in Lean 4, of the order-persistence / reconciliation layer
and of the site-availability checker of the bookmark-kanban browser extension:

* `src/js/modules/siteChecker.js` (class `SiteChecker`): tiered TTL cache,
  classification, size eviction — namespace `SiteChecker`;
* `src/js/siteChecker.js` (legacy regex `isLocalNetwork`) — namespace
  `LegacySiteChecker`;
* `src/js/modules/ui/ColumnManager.js` (`renderOrderedBookmarks`);
* `src/js/modules/ui/KanbanRenderer.js` (`determineColumnOrder`);
* background worker `checkAllBookmarks` (batched probing).

JavaScript `Map` objects are embedded as association lists in insertion
order; `Map.set` replaces the value of an existing key in place, `Map.delete`
removes the key's entry.  Plain objects used as dictionaries are embedded the
same way, except that their `Object.values` enumeration follows the ECMAScript
own-property-key order (array-index keys ascending numerically, then the other
keys in insertion order).  Hostnames and other strings manipulated character
by character are embedded as `List Char`; machine timestamps (`Date.now()`)
are naturals, with JavaScript's `a - b > d` / `a - b <= d` on timestamps
mirrored by truncated `Nat` subtraction, which yields the same verdicts
because a negative JS difference and a truncated-to-zero difference compare
to the nonnegative durations identically.
-/

namespace BookmarkKanban

/-- Hostnames (and other JS strings that get sliced and split) are lists of
characters. -/
abbrev Hostname := List Char

section JsCollections

variable {κ α : Type} [DecidableEq κ]

/-- JS `Map.prototype.set` / plain-object property write on an association
list kept in insertion order: an existing key keeps its slot and gets the new
value, a new key is appended at the end. -/
def jsSet : List (κ × α) → κ → α → List (κ × α)
  | [], k, v => [(k, v)]
  | p :: rest, k, v => if p.1 = k then (k, v) :: rest else p :: jsSet rest k v

/-- JS `Map.prototype.get` / property read: the value stored at the first
(and, for a genuine map, only) occurrence of the key. -/
def jsGet : List (κ × α) → κ → Option α
  | [], _ => none
  | p :: rest, k => if p.1 = k then some p.2 else jsGet rest k

/-- JS `Map.prototype.delete` / the `delete` operator: drop the key's entry. -/
def jsDelete (m : List (κ × α)) (k : κ) : List (κ × α) :=
  m.filter (fun p => decide (p.1 ≠ k))

/-- The key list of an embedded map. -/
def keysOf (m : List (κ × α)) : List κ := m.map Prod.fst

theorem keysOf_nil : keysOf ([] : List (κ × α)) = [] := rfl

theorem keysOf_cons (p : κ × α) (m : List (κ × α)) :
    keysOf (p :: m) = p.1 :: keysOf m := rfl

theorem mem_keysOf_cons {p : κ × α} {m : List (κ × α)} {k : κ} :
    k ∈ keysOf (p :: m) ↔ k = p.1 ∨ k ∈ keysOf m := by
  simp [keysOf]

theorem jsGet_eq_none (m : List (κ × α)) (k : κ) :
    jsGet m k = none ↔ k ∉ keysOf m := by
  induction m with
  | nil => simp [jsGet, keysOf]
  | cons p rest ih =>
    by_cases h : p.1 = k
    · simp [jsGet, mem_keysOf_cons, h]
    · simp [jsGet, mem_keysOf_cons, h, Ne.symm h, ih]

theorem jsGet_set_self (m : List (κ × α)) (k : κ) (v : α) :
    jsGet (jsSet m k v) k = some v := by
  induction m with
  | nil => simp [jsSet, jsGet]
  | cons p rest ih =>
    by_cases h : p.1 = k <;> simp [jsSet, jsGet, h, ih]

theorem jsGet_set_other (m : List (κ × α)) (k k' : κ) (v : α) (hk : k' ≠ k) :
    jsGet (jsSet m k v) k' = jsGet m k' := by
  induction m with
  | nil => simp [jsSet, jsGet, Ne.symm hk]
  | cons p rest ih =>
    by_cases h : p.1 = k
    · subst h; simp [jsSet, jsGet, Ne.symm hk, hk]
    · by_cases h' : p.1 = k' <;> simp [jsSet, jsGet, h, h', hk, ih]

theorem keysOf_jsSet_of_mem (m : List (κ × α)) (k : κ) (v : α)
    (h : k ∈ keysOf m) : keysOf (jsSet m k v) = keysOf m := by
  induction m with
  | nil => simp [keysOf] at h
  | cons p rest ih =>
    by_cases hp : p.1 = k
    · simp [jsSet, keysOf_cons, hp]
    · have h' : k ∈ keysOf rest := by
        rcases mem_keysOf_cons.mp h with h1 | h1
        · exact absurd h1.symm hp
        · exact h1
      simp [jsSet, keysOf_cons, hp, ih h']

theorem keysOf_jsSet_of_not_mem (m : List (κ × α)) (k : κ) (v : α)
    (h : k ∉ keysOf m) : keysOf (jsSet m k v) = keysOf m ++ [k] := by
  induction m with
  | nil => simp [jsSet, keysOf]
  | cons p rest ih =>
    simp only [mem_keysOf_cons] at h
    push_neg at h
    have hp : p.1 ≠ k := fun e => h.1 e.symm
    simp [jsSet, keysOf_cons, hp, ih h.2]

theorem keysOf_jsDelete (m : List (κ × α)) (k : κ) :
    keysOf (jsDelete m k) = (keysOf m).filter (fun x => decide (x ≠ k)) := by
  induction m with
  | nil => simp [jsDelete, keysOf]
  | cons p rest ih =>
    by_cases h : p.1 = k
    · simp [jsDelete, keysOf_cons, h, List.filter_cons] at ih ⊢
      exact ih
    · simp [jsDelete, keysOf_cons, h, List.filter_cons] at ih ⊢
      exact ih

theorem length_jsSet (m : List (κ × α)) (k : κ) (v : α) :
    (jsSet m k v).length ≤ m.length + 1 := by
  induction m with
  | nil => simp [jsSet]
  | cons p rest ih =>
    by_cases h : p.1 = k <;> simp [jsSet, h] <;> omega

end JsCollections

namespace SiteChecker

/-- The four classification values the checker produces and caches:
JS `true`, `'no-https'`, `'certificate-error'` and `false`. -/
inductive SiteStatus where
  | success
  | noHttps
  | certError
  | failure
deriving DecidableEq, Repr, Fintype

/-- `CACHE_DURATION.SUCCESS`: 24 hours, in milliseconds. -/
def CACHE_DURATION_SUCCESS : Nat := 24 * 60 * 60 * 1000

/-- `CACHE_DURATION.FAILURE`: 1 hour, in milliseconds. -/
def CACHE_DURATION_FAILURE : Nat := 1 * 60 * 60 * 1000

/-- `CACHE_DURATION.CERT_ERROR`: 12 hours, in milliseconds. -/
def CACHE_DURATION_CERT_ERROR : Nat := 12 * 60 * 60 * 1000

/-- `CACHE_DURATION.NO_HTTPS`: 12 hours, in milliseconds. -/
def CACHE_DURATION_NO_HTTPS : Nat := 12 * 60 * 60 * 1000

/-- `this.MAX_CACHE_SIZE = 500`. -/
def MAX_CACHE_SIZE : Nat := 500

/-- `this.TOTAL_CHECK_TIMEOUT = 5000` (ms): the overall deadline the
availability check is raced against in `checkSite`. -/
def TOTAL_CHECK_TIMEOUT : Nat := 5000

/-- The two `Map`s of the checker: `this.siteStatus` (hostname → cached
classification) and `this.checkTimes` (hostname → `Date.now()` of the check
that produced it). -/
structure SiteCheckerState where
  siteStatus : List (Hostname × SiteStatus)
  checkTimes : List (Hostname × Nat)

/-- The state right after the constructor ran: both maps empty. -/
def initialState : SiteCheckerState := ⟨[], []⟩

/-- `getCacheDuration(status)`.  The argument is what `siteStatus.get`
returned, hence an `Option`: a missing entry (JS `undefined`), like `false`
and every other non-matching value, falls through to the `FAILURE`
duration. -/
def getCacheDuration : Option SiteStatus → Nat
  | some .success => CACHE_DURATION_SUCCESS
  | some .certError => CACHE_DURATION_CERT_ERROR
  | some .noHttps => CACHE_DURATION_NO_HTTPS
  | _ => CACHE_DURATION_FAILURE

/-- `shouldRecheck(hostname)` at time `now`. -/
def shouldRecheck (st : SiteCheckerState) (h : Hostname) (now : Nat) : Bool :=
  match jsGet st.checkTimes h with
  | none => true
  | some lastCheck =>
      decide (now - lastCheck > getCacheDuration (jsGet st.siteStatus h))

/-- `isCacheValid(hostname)` at time `now`. -/
def isCacheValid (st : SiteCheckerState) (h : Hostname) (now : Nat) : Bool :=
  match jsGet st.checkTimes h with
  | none => false
  | some lastCheck =>
      decide (now - lastCheck ≤ getCacheDuration (jsGet st.siteStatus h))

/-- `getCachedStatus(hostname)` at time `now`; `none` is JS `null` (invalid
cache) or `undefined` (no stored status). -/
def getCachedStatus (st : SiteCheckerState) (h : Hostname) (now : Nat) :
    Option SiteStatus :=
  if isCacheValid st h now then jsGet st.siteStatus h else none

/-- `Math.ceil(this.MAX_CACHE_SIZE * 0.2)`: in IEEE-754 double arithmetic
`500 * 0.2` rounds to exactly `100.0`, so the ceiling is `100`. -/
def removeCount : Nat := 100

/-- The sort in `limitCacheSize`: `entries.sort((a, b) => a[1] - b[1])`,
ascending by check timestamp.  JS `Array.prototype.sort` is stable, and a
stable sort's output is uniquely determined by the comparator, so Mathlib's
(stable) insertion sort embeds it. -/
def sortByCheckTime (entries : List (Hostname × Nat)) : List (Hostname × Nat) :=
  entries.insertionSort (fun a b => a.2 ≤ b.2)

/-- `limitCacheSize()`: delete the `removeCount` oldest-checked hostnames
from both maps. -/
def limitCacheSize (st : SiteCheckerState) : SiteCheckerState :=
  let toRemove := (sortByCheckTime st.checkTimes).take removeCount
  { siteStatus := toRemove.foldl (fun m p => jsDelete m p.1) st.siteStatus,
    checkTimes := toRemove.foldl (fun m p => jsDelete m p.1) st.checkTimes }

/-- `updateCache(hostname, status)` at time `now`. -/
def updateCache (st : SiteCheckerState) (h : Hostname) (s : SiteStatus)
    (now : Nat) : SiteCheckerState :=
  let st1 := if st.siteStatus.length ≥ MAX_CACHE_SIZE then limitCacheSize st else st
  { siteStatus := jsSet st1.siteStatus h s,
    checkTimes := jsSet st1.checkTimes h now }

/-- `cleanupCache()` at time `now`: collect the hostnames whose entry age
exceeds the duration of their stored class, then delete them from both
maps. -/
def cleanupCache (st : SiteCheckerState) (now : Nat) : SiteCheckerState :=
  let expiredHosts :=
    (st.checkTimes.filter
      (fun p => decide (now - p.2 > getCacheDuration (jsGet st.siteStatus p.1)))).map
      Prod.fst
  { siteStatus := expiredHosts.foldl (fun m h => jsDelete m h) st.siteStatus,
    checkTimes := expiredHosts.foldl (fun m h => jsDelete m h) st.checkTimes }

end SiteChecker

/-! ## JS string primitives used by the hostname classifiers -/

/-- JS `String.prototype.startsWith(p)` on character lists. -/
def jsStartsWith : List Char → List Char → Bool
  | _, [] => true
  | [], _ :: _ => false
  | c :: s, q :: qs => decide (c = q) && jsStartsWith s qs

/-- JS `String.prototype.endsWith(p)` on character lists. -/
def jsEndsWith (s p : List Char) : Bool := jsStartsWith s.reverse p.reverse

/-- JS `String.prototype.split('.')`: always at least one field, empty
fields kept. -/
def splitOnDot : List Char → List (List Char)
  | [] => [[]]
  | c :: rest =>
    if c = '.' then [] :: splitOnDot rest
    else
      match splitOnDot rest with
      | [] => [[c]]
      | s :: ss => (c :: s) :: ss

/-- The whitespace `parseInt` skips before parsing (the ASCII part; hostnames
contain none of the non-ASCII space characters). -/
def jsIsSpace (c : Char) : Bool :=
  decide (c = ' ' ∨ c = '\t' ∨ c = '\n' ∨ c = '\r' ∨ c = '\x0b' ∨ c = '\x0c')

/-- A decimal digit, `[0-9]` / `\\d`: code points 48 to 57. -/
def isDigitChar (c : Char) : Bool := decide (48 ≤ c.toNat ∧ c.toNat ≤ 57)

/-- Numeric value of a decimal digit character. -/
def digitVal (c : Char) : Nat := c.toNat - 48

/-- Value of a decimal digit string (most significant first). -/
def digitsToNat (l : List Char) : Nat :=
  l.foldl (fun acc c => 10 * acc + digitVal c) 0

/-- The digit-consuming core of `parseInt(s, 10)`: longest decimal-digit
run at the front; no digits means `NaN`, embedded as `none`. -/
def parseDigits (l : List Char) : Option Nat :=
  let d := l.takeWhile isDigitChar
  if d.isEmpty then none else some (digitsToNat d)

/-- Sign handling of `parseInt(s, 10)` once leading whitespace is gone. -/
def parseIntTrimmed : List Char → Option Int
  | [] => none
  | c :: rest =>
    if c = '-' then (parseDigits rest).map (fun n => -(n : Int))
    else if c = '+' then (parseDigits rest).map (fun n => (n : Int))
    else (parseDigits (c :: rest)).map (fun n => (n : Int))

/-- JS `parseInt(s, 10)`: skip leading whitespace, optional sign, then the
longest digit run; `NaN` is `none`. -/
def parseInt10 (s : List Char) : Option Int :=
  parseIntTrimmed (s.dropWhile jsIsSpace)

namespace SiteChecker

/-- `isLocalNetwork(hostname)` from `src/js/modules/siteChecker.js`:
literal `localhost` / `127.0.0.1`, `192.168.` / `10.` string prefixes, a
`.local` suffix, and the `172.16.x.x`–`172.31.x.x` range recognised by
splitting on dots and `parseInt`-ing the second field. -/
def isLocalNetwork (h : Hostname) : Bool :=
  if decide (h = "localhost".toList) || decide (h = "127.0.0.1".toList)
      || jsStartsWith h ("192.168.".toList) || jsStartsWith h ("10.".toList)
      || jsEndsWith h (".local".toList) then
    true
  else if jsStartsWith h ("172.".toList) then
    match splitOnDot h with
    | _ :: p1 :: _ =>
      match parseInt10 p1 with
      | some secondPart => decide (16 ≤ secondPart ∧ secondPart ≤ 31)
      | none => false
    | _ => false
  else false

/-- What one `checkSite` call produced: the resolved value (`none` embeds a
JS `null`/`undefined` escaping through the cache-hit path), the checker state
after the call, and whether an actual availability probe was raced against
the `TOTAL_CHECK_TIMEOUT` deadline. -/
structure CheckSiteResult where
  result : Option SiteStatus
  state : SiteCheckerState
  probed : Bool

/-- `checkSite(hostname)` at time `now`.  The raced
`Promise.race([this.checkAvailability(hostname), timeoutPromise])` is an
oracle parameter: `.ok s` is an availability check that settled first with
classification `s` (`checkAvailability` only ever resolves to one of the four
`SiteStatus` values), `.error ()` is a check that threw or that the 5000 ms
timeout promise beat, in which case the `catch` branch caches and returns
`false`. -/
def checkSite (st : SiteCheckerState) (h : Hostname) (now : Nat)
    (availability : Except Unit SiteStatus) : CheckSiteResult :=
  if isLocalNetwork h then ⟨some .success, st, false⟩
  else if !shouldRecheck st h now then ⟨getCachedStatus st h now, st, false⟩
  else
    match availability with
    | .ok status => ⟨some status, updateCache st h status now, true⟩
    | .error _ => ⟨some .failure, updateCache st h .failure now, true⟩

/-! ## Cache lemmas -/

theorem jsGet_jsDelete {α : Type} (m : List (Hostname × α)) (k h : Hostname) :
    jsGet (jsDelete m k) h = if h = k then none else jsGet m h := by
  induction m with
  | nil => simp [jsDelete, jsGet]
  | cons p rest ih =>
    by_cases hpk : p.1 = k
    · have hstep : jsDelete (p :: rest) k = jsDelete rest k := by
        simp [jsDelete, List.filter_cons, hpk]
      rw [hstep, ih]
      by_cases hhk : h = k
      · simp [hhk]
      · have hph : ¬ p.1 = h := by rw [hpk]; exact fun e => hhk e.symm
        simp [jsGet, hph, hhk]
    · have hstep : jsDelete (p :: rest) k = p :: jsDelete rest k := by
        simp [jsDelete, List.filter_cons, hpk]
      rw [hstep]
      by_cases hph : p.1 = h
      · have hhk : ¬ h = k := fun e => hpk (hph.trans e)
        simp [jsGet, hph, hhk]
      · simp [jsGet, hph, ih]

theorem foldl_jsDelete_eq_filter {α : Type} (hs : List Hostname)
    (m : List (Hostname × α)) :
    hs.foldl (fun acc k => jsDelete acc k) m =
      m.filter (fun p => decide (p.1 ∉ hs)) := by
  induction hs generalizing m with
  | nil => simp
  | cons k rest ih =>
    rw [List.foldl_cons, ih (jsDelete m k)]
    simp only [jsDelete, List.filter_filter]
    apply List.filter_congr
    intro p _
    by_cases h1 : p.1 = k <;> by_cases h2 : p.1 ∈ rest <;>
      simp [h1, h2]

theorem updateCache_get_self (st : SiteCheckerState) (h : Hostname)
    (s : SiteStatus) (now : Nat) :
    jsGet (updateCache st h s now).siteStatus h = some s ∧
      jsGet (updateCache st h s now).checkTimes h = some now := by
  constructor <;> simp [updateCache, jsGet_set_self]

theorem jsGet_foldl_jsDelete {α : Type} (hs : List Hostname)
    (m : List (Hostname × α)) (h : Hostname) :
    jsGet (hs.foldl (fun acc k => jsDelete acc k) m) h =
      if h ∈ hs then none else jsGet m h := by
  induction hs generalizing m with
  | nil => simp
  | cons k rest ih =>
    rw [List.foldl_cons, ih (jsDelete m k), jsGet_jsDelete]
    by_cases h1 : h ∈ rest <;> by_cases h2 : h = k <;> simp [h1, h2]

theorem jsGet_eq_some_iff_mem {κ α : Type} [DecidableEq κ]
    {m : List (κ × α)} (hnd : (keysOf m).Nodup) {k : κ} {v : α} :
    jsGet m k = some v ↔ (k, v) ∈ m := by
  induction m with
  | nil => simp [jsGet]
  | cons p rest ih =>
    obtain ⟨k1, v1⟩ := p
    rw [keysOf_cons, List.nodup_cons] at hnd
    simp only [jsGet, List.mem_cons]
    by_cases hpk : k1 = k
    · subst hpk
      rw [if_pos rfl]
      constructor
      · intro h
        cases h
        exact Or.inl rfl
      · rintro (h | h)
        · have hv : v = v1 := congrArg Prod.snd h
          rw [hv]
        · exact absurd (List.mem_map.mpr ⟨(k1, v), h, rfl⟩) hnd.1
    · rw [if_neg hpk, ih hnd.2]
      constructor
      · exact Or.inr
      · rintro (h | h)
        · exact absurd (congrArg Prod.fst h).symm hpk
        · exact h

theorem key_injective_of_nodup {κ α : Type} [DecidableEq κ]
    {m : List (κ × α)} (hnd : (keysOf m).Nodup) {p q : κ × α}
    (hp : p ∈ m) (hq : q ∈ m) (hk : p.1 = q.1) : p = q :=
  List.inj_on_of_nodup_map (by simpa [keysOf] using hnd) hp hq hk

/-- C3: the site-status cache's expiry is differentiated by result class:
`getCacheDuration` assigns each of the four classes (and any other stored
value, including a missing one) its duration, and `shouldRecheck`,
`isCacheValid` and `cleanupCache` treat an entry as expired exactly when its
age exceeds the duration assigned to its stored class. -/
theorem cache_expiry_differentiated_by_class :
    (getCacheDuration (some .success) = CACHE_DURATION_SUCCESS ∧
      getCacheDuration (some .failure) = CACHE_DURATION_FAILURE ∧
      getCacheDuration (some .certError) = CACHE_DURATION_CERT_ERROR ∧
      getCacheDuration (some .noHttps) = CACHE_DURATION_NO_HTTPS ∧
      getCacheDuration none = CACHE_DURATION_FAILURE) ∧
    (∀ st h now, shouldRecheck st h now = !isCacheValid st h now) ∧
    (∀ st h now t, jsGet st.checkTimes h = some t →
      (isCacheValid st h now = true ↔
        now - t ≤ getCacheDuration (jsGet st.siteStatus h))) ∧
    (∀ st now, (keysOf st.checkTimes).Nodup →
      (cleanupCache st now).checkTimes =
        st.checkTimes.filter
          (fun p => decide (now - p.2 ≤ getCacheDuration (jsGet st.siteStatus p.1)))) ∧
    (∀ st now h t, (keysOf st.checkTimes).Nodup →
      jsGet st.checkTimes h = some t →
      jsGet (cleanupCache st now).siteStatus h =
        if now - t > getCacheDuration (jsGet st.siteStatus h) then none
        else jsGet st.siteStatus h) := by
  refine ⟨⟨rfl, rfl, rfl, rfl, rfl⟩, ?_, ?_, ?_, ?_⟩
  · intro st h now
    cases e : jsGet st.checkTimes h
    · simp [shouldRecheck, isCacheValid, e]
    · simp only [shouldRecheck, isCacheValid, e]
      rw [← decide_not, decide_eq_decide]
      omega
  · intro st h now t ht
    simp [isCacheValid, ht]
  · intro st now hnd
    show List.foldl _ st.checkTimes _ = _
    rw [foldl_jsDelete_eq_filter]
    apply List.filter_congr
    intro p hp
    have hmem : p.1 ∈ (st.checkTimes.filter
        (fun q => decide (now - q.2 > getCacheDuration (jsGet st.siteStatus q.1)))).map
          Prod.fst ↔
        now - p.2 > getCacheDuration (jsGet st.siteStatus p.1) := by
      simp only [List.mem_map, List.mem_filter]
      constructor
      · rintro ⟨q, ⟨hq, hqe⟩, hqp⟩
        have := key_injective_of_nodup hnd hq hp hqp
        subst this
        exact of_decide_eq_true hqe
      · intro hexp
        exact ⟨p, ⟨hp, decide_eq_true hexp⟩, rfl⟩
    rw [decide_eq_decide, hmem]
    omega
  · intro st now h t hnd ht
    show jsGet (List.foldl _ st.siteStatus _) h = _
    rw [jsGet_foldl_jsDelete]
    have hmem : h ∈ (st.checkTimes.filter
        (fun q => decide (now - q.2 > getCacheDuration (jsGet st.siteStatus q.1)))).map
          Prod.fst ↔
        now - t > getCacheDuration (jsGet st.siteStatus h) := by
      have hpm : (h, t) ∈ st.checkTimes := (jsGet_eq_some_iff_mem hnd).mp ht
      simp only [List.mem_map, List.mem_filter]
      constructor
      · rintro ⟨q, ⟨hq, hqe⟩, hqp⟩
        have := key_injective_of_nodup hnd hq hpm hqp
        subst this
        exact of_decide_eq_true hqe
      · intro hexp
        exact ⟨(h, t), ⟨hpm, decide_eq_true hexp⟩, rfl⟩
    by_cases hexp : now - t > getCacheDuration (jsGet st.siteStatus h)
    · rw [if_pos (hmem.mpr hexp), if_pos hexp]
    · rw [if_neg (fun hin => hexp (hmem.mp hin)), if_neg hexp]

/-- Witness for C3: on a one-entry cache whose success entry is 25 hours
old, `cleanupCache` drops the stored status. -/
theorem cache_expiry_differentiated_by_class_witness :
    jsGet (cleanupCache ⟨[(['a'], SiteStatus.success)], [(['a'], 0)]⟩
        90000000).siteStatus ['a'] = none := by
  have := cache_expiry_differentiated_by_class.2.2.2.2
    ⟨[(['a'], SiteStatus.success)], [(['a'], 0)]⟩ 90000000 ['a'] 0
    (by simp [keysOf]) (by rfl)
  rw [this]
  rfl

/-- C4 counterexample: no two naturals cover the range of
`getCacheDuration` — it takes the three distinct values 24 h, 12 h and 1 h,
so the cache does not have exactly two TTL buckets. -/
theorem cache_ttl_not_two_buckets :
    ¬ ∃ a b : Nat, ∀ s : Option SiteStatus,
        getCacheDuration s = a ∨ getCacheDuration s = b := by
  rintro ⟨a, b, hall⟩
  have h1 := hall (some .success)
  have h2 := hall (some .certError)
  have h3 := hall none
  simp only [getCacheDuration, CACHE_DURATION_SUCCESS, CACHE_DURATION_CERT_ERROR,
    CACHE_DURATION_FAILURE] at h1 h2 h3
  omega

/-- C4 amended: the set of distinct cache durations `getCacheDuration` can
return has exactly three elements (24 h for success, 12 h shared by
certificate-error and no-https, 1 h for failure and anything else). -/
theorem cache_ttl_three_buckets :
    (Finset.image getCacheDuration Finset.univ).card = 3 := by
  decide

/-- C5: whenever `siteStatus` stores a value for every hostname `checkTimes`
knows (which the class's own writes maintain, cf. the eviction invariant),
`checkSite` resolves to one of the four classification values — never to the
`null`/`undefined` that the cache-hit path could otherwise leak. -/
theorem checkSite_result_classified (st : SiteCheckerState) (h : Hostname)
    (now : Nat) (avail : Except Unit SiteStatus)
    (hal : ∀ h', (jsGet st.checkTimes h').isSome = true →
      (jsGet st.siteStatus h').isSome = true) :
    ∃ s : SiteStatus, (checkSite st h now avail).result = some s := by
  by_cases hl : isLocalNetwork h
  · exact ⟨.success, by simp [checkSite, hl]⟩
  · by_cases hr : shouldRecheck st h now = true
    · cases avail with
      | ok status => exact ⟨status, by simp [checkSite, hl, hr]⟩
      | error e => exact ⟨.failure, by simp [checkSite, hl, hr]⟩
    · have hr' : shouldRecheck st h now = false := by
        revert hr; cases shouldRecheck st h now <;> simp
      rcases e : jsGet st.checkTimes h with _ | t
      · exact absurd (by simp [shouldRecheck, e]) hr
      · have hle : now - t ≤ getCacheDuration (jsGet st.siteStatus h) := by
          have := hr'
          simp only [shouldRecheck, e, decide_eq_false_iff_not] at this
          omega
        have hv : isCacheValid st h now = true := by
          simp [isCacheValid, e, hle]
        obtain ⟨s, hs⟩ : ∃ s, jsGet st.siteStatus h = some s := by
          have := hal h (by simp [e])
          rcases e2 : jsGet st.siteStatus h with _ | s
          · rw [e2] at this; simp at this
          · exact ⟨s, rfl⟩
        exact ⟨s, by simp [checkSite, hl, hr', getCachedStatus, hv, hs]⟩

/-- Witness for C5 at the freshly constructed checker. -/
theorem checkSite_result_classified_witness :
    ∃ s : SiteStatus,
      (checkSite initialState ['a'] 0 (.ok .noHttps)).result = some s :=
  checkSite_result_classified initialState ['a'] 0 (.ok .noHttps)
    (fun h' hh => by simp [initialState, jsGet] at hh)

/-- C6: for a non-local hostname due for a recheck, a thrown or timed-out
availability race (`.error ()`) makes `checkSite` return `false` and cache
`false` under a fresh timestamp, while a check that settled with `s` returns
`s` and caches exactly that status. -/
theorem checkSite_timeout_caches_failure (st : SiteCheckerState) (h : Hostname)
    (now : Nat) (s : SiteStatus)
    (hloc : isLocalNetwork h = false)
    (hrec : shouldRecheck st h now = true) :
    ((checkSite st h now (.error ())).result = some .failure ∧
      (checkSite st h now (.error ())).probed = true ∧
      jsGet (checkSite st h now (.error ())).state.siteStatus h = some .failure ∧
      jsGet (checkSite st h now (.error ())).state.checkTimes h = some now) ∧
    ((checkSite st h now (.ok s)).result = some s ∧
      jsGet (checkSite st h now (.ok s)).state.siteStatus h = some s ∧
      jsGet (checkSite st h now (.ok s)).state.checkTimes h = some now) := by
  have he : checkSite st h now (.error ()) =
      ⟨some .failure, updateCache st h .failure now, true⟩ := by
    simp [checkSite, hloc, hrec]
  have ho : checkSite st h now (.ok s) =
      ⟨some s, updateCache st h s now, true⟩ := by
    simp [checkSite, hloc, hrec]
  rw [he, ho]
  exact ⟨⟨rfl, rfl, (updateCache_get_self st h .failure now).1,
      (updateCache_get_self st h .failure now).2⟩,
    ⟨rfl, (updateCache_get_self st h s now).1,
      (updateCache_get_self st h s now).2⟩⟩

/-- Witness for C6 at the freshly constructed checker. -/
theorem checkSite_timeout_caches_failure_witness :
    (checkSite initialState ['a'] 7 (.error ())).result = some .failure ∧
      jsGet (checkSite initialState ['a'] 7 (.error ())).state.siteStatus
        ['a'] = some .failure :=
  ⟨(checkSite_timeout_caches_failure initialState ['a'] 7 .success
      (by decide) (by rfl)).1.1,
    (checkSite_timeout_caches_failure initialState ['a'] 7 .success
      (by decide) (by rfl)).1.2.2.1⟩

/-- C8: cache round-trip.  Right after `updateCache(h, s)` at time `t`, and
at any later probe time `t'` within the duration assigned to `s`,
`getCachedStatus` returns `s`, `shouldRecheck` says no, and a `checkSite`
call leaves the state untouched without racing a probe (returning the cached
`s` whenever `h` is not short-circuited as local). -/
theorem cache_round_trip (st : SiteCheckerState) (h : Hostname)
    (s : SiteStatus) (t t' : Nat) (avail : Except Unit SiteStatus)
    (hfresh : t' - t ≤ getCacheDuration (some s)) :
    getCachedStatus (updateCache st h s t) h t' = some s ∧
      shouldRecheck (updateCache st h s t) h t' = false ∧
      (checkSite (updateCache st h s t) h t' avail).probed = false ∧
      (checkSite (updateCache st h s t) h t' avail).state = updateCache st h s t ∧
      (isLocalNetwork h = false →
        (checkSite (updateCache st h s t) h t' avail).result = some s) := by
  obtain ⟨g1, g2⟩ := updateCache_get_self st h s t
  have hnot : ¬ (t' - t > getCacheDuration (some s)) := by omega
  have hv : isCacheValid (updateCache st h s t) h t' = true := by
    simp [isCacheValid, g1, g2, hfresh]
  have hc : getCachedStatus (updateCache st h s t) h t' = some s := by
    simp [getCachedStatus, hv, g1]
  have hr : shouldRecheck (updateCache st h s t) h t' = false := by
    simp [shouldRecheck, g1, g2, hnot]
  by_cases hl : isLocalNetwork h
  · refine ⟨hc, hr, ?_, ?_, ?_⟩ <;> simp [checkSite, hl]
  · refine ⟨hc, hr, ?_, ?_, ?_⟩ <;> simp [checkSite, hl, hr, hc]

/-- Witness for C8 at the freshly constructed checker. -/
theorem cache_round_trip_witness :
    getCachedStatus (updateCache initialState ['a'] .success 5) ['a'] 6 =
      some .success :=
  (cache_round_trip initialState ['a'] .success 5 6 (.ok .failure)
    (by decide)).1

/-! ## Size eviction (C7) -/

theorem keysOf_filter_notin {α : Type} (S : List Hostname)
    (m : List (Hostname × α)) :
    keysOf (m.filter (fun p => decide (p.1 ∉ S))) =
      (keysOf m).filter (fun k => decide (k ∉ S)) := by
  induction m with
  | nil => rfl
  | cons p rest ih =>
    rw [List.filter_cons, keysOf_cons, List.filter_cons]
    by_cases h : p.1 ∈ S
    · rw [if_neg (by simp [h]), if_neg (by simp [h]), ih]
    · rw [if_pos (by simp [h]), if_pos (by simp [h]), keysOf_cons, ih]

theorem length_jsSet_eq {κ α : Type} [DecidableEq κ] (m : List (κ × α))
    (k : κ) (v : α) :
    (jsSet m k v).length =
      if k ∈ keysOf m then m.length else m.length + 1 := by
  induction m with
  | nil => simp [jsSet, keysOf]
  | cons p rest ih =>
    by_cases h : p.1 = k
    · simp [jsSet, h, mem_keysOf_cons]
    · by_cases h2 : k ∈ keysOf rest <;>
        simp [jsSet, h, mem_keysOf_cons, Ne.symm h, ih, h2]

instance : IsTotal (Hostname × Nat) (fun a b => a.2 ≤ b.2) :=
  ⟨fun a b => Nat.le_total a.2 b.2⟩

instance : IsTrans (Hostname × Nat) (fun a b => a.2 ≤ b.2) :=
  ⟨fun _ _ _ hab hbc => Nat.le_trans hab hbc⟩

theorem limitCacheSize_checkTimes (st : SiteCheckerState) :
    (limitCacheSize st).checkTimes =
      st.checkTimes.filter (fun p =>
        decide (p.1 ∉ keysOf ((sortByCheckTime st.checkTimes).take removeCount))) := by
  show List.foldl _ st.checkTimes _ = _
  rw [← List.foldl_map, foldl_jsDelete_eq_filter]
  rfl

theorem limitCacheSize_siteStatus (st : SiteCheckerState) :
    (limitCacheSize st).siteStatus =
      st.siteStatus.filter (fun p =>
        decide (p.1 ∉ keysOf ((sortByCheckTime st.checkTimes).take removeCount))) := by
  show List.foldl _ st.siteStatus _ = _
  rw [← List.foldl_map, foldl_jsDelete_eq_filter]
  rfl

theorem limitCacheSize_keys (st : SiteCheckerState)
    (hk : keysOf st.siteStatus = keysOf st.checkTimes) :
    keysOf (limitCacheSize st).siteStatus = keysOf (limitCacheSize st).checkTimes := by
  rw [limitCacheSize_checkTimes, limitCacheSize_siteStatus,
    keysOf_filter_notin, keysOf_filter_notin, hk]

theorem limitCacheSize_nodup (st : SiteCheckerState)
    (hnd : (keysOf st.checkTimes).Nodup) :
    (keysOf (limitCacheSize st).checkTimes).Nodup := by
  rw [limitCacheSize_checkTimes, keysOf_filter_notin]
  exact hnd.filter _

theorem limitCacheSize_length (st : SiteCheckerState)
    (hnd : (keysOf st.checkTimes).Nodup) :
    (limitCacheSize st).checkTimes.length =
      st.checkTimes.length - removeCount := by
  have hperm : List.Perm (sortByCheckTime st.checkTimes) st.checkTimes :=
    List.perm_insertionSort _ st.checkTimes
  have hndsrt : (keysOf (sortByCheckTime st.checkTimes)).Nodup :=
    ((hperm.map Prod.fst).nodup_iff).mpr hnd
  set srt := sortByCheckTime st.checkTimes with hsrtdef
  set S := keysOf (srt.take removeCount) with hSdef
  have hsplitkeys : (keysOf (srt.take removeCount) ++
      keysOf (srt.drop removeCount)).Nodup := by
    have : keysOf srt = keysOf (srt.take removeCount) ++ keysOf (srt.drop removeCount) := by
      simp only [keysOf]
      rw [← List.map_append, List.take_append_drop]
    rwa [this] at hndsrt
  have hdisj := (List.nodup_append.mp hsplitkeys).2.2
  rw [limitCacheSize_checkTimes, ← List.countP_eq_length_filter, ← hperm.countP_eq]
  have hsplit : srt.countP (fun p => decide (p.1 ∉ S)) =
      (srt.take removeCount).countP (fun p => decide (p.1 ∉ S)) +
        (srt.drop removeCount).countP (fun p => decide (p.1 ∉ S)) := by
    conv_lhs => rw [← List.take_append_drop removeCount srt]
    rw [List.countP_append]
  have htake : (srt.take removeCount).countP (fun p => decide (p.1 ∉ S)) = 0 := by
    rw [List.countP_eq_zero]
    intro p hp
    simp only [decide_eq_true_eq, not_not]
    exact List.mem_map.mpr ⟨p, hp, rfl⟩
  have hdrop : (srt.drop removeCount).countP (fun p => decide (p.1 ∉ S)) =
      (srt.drop removeCount).length := by
    rw [List.countP_eq_length]
    intro q hq
    simp only [decide_eq_true_eq]
    exact fun hmem => hdisj hmem (List.mem_map.mpr ⟨q, hq, rfl⟩)
  rw [hsplit, htake, hdrop, Nat.zero_add, List.length_drop, hperm.length_eq]

theorem limitCacheSize_removes_oldest (st : SiteCheckerState) :
    ∀ p ∈ (sortByCheckTime st.checkTimes).take removeCount,
      ∀ q ∈ (limitCacheSize st).checkTimes, p.2 ≤ q.2 := by
  intro p hp q hq
  have hperm : List.Perm (sortByCheckTime st.checkTimes) st.checkTimes :=
    List.perm_insertionSort _ st.checkTimes
  rw [limitCacheSize_checkTimes] at hq
  obtain ⟨hq1, hq2⟩ := List.mem_filter.mp hq
  have hqsrt : q ∈ sortByCheckTime st.checkTimes := hperm.mem_iff.mpr hq1
  rw [← List.take_append_drop removeCount (sortByCheckTime st.checkTimes),
    List.mem_append] at hqsrt
  rcases hqsrt with hqin | hqin
  · exfalso
    simp only [decide_eq_true_eq] at hq2
    exact hq2 (List.mem_map.mpr ⟨q, hqin, rfl⟩)
  · have hsorted : List.Sorted (fun a b : Hostname × Nat => a.2 ≤ b.2)
        (sortByCheckTime st.checkTimes) :=
      List.sorted_insertionSort _ st.checkTimes
    have hpw := hsorted
    rw [List.Sorted, ← List.take_append_drop removeCount
      (sortByCheckTime st.checkTimes), List.pairwise_append] at hpw
    exact hpw.2.2 p hp q hqin

/-- The invariant the cache maintains: aligned key lists, no duplicate
hostname, and at most `MAX_CACHE_SIZE` entries. -/
def CacheInv (st : SiteCheckerState) : Prop :=
  keysOf st.siteStatus = keysOf st.checkTimes ∧
    (keysOf st.checkTimes).Nodup ∧
    st.checkTimes.length ≤ MAX_CACHE_SIZE

theorem cacheInv_jsSet (ss : List (Hostname × SiteStatus))
    (ct : List (Hostname × Nat)) (h : Hostname) (s : SiteStatus) (now : Nat)
    (hk : keysOf ss = keysOf ct) (hnd : (keysOf ct).Nodup)
    (hlen : ct.length < MAX_CACHE_SIZE ∨
      (h ∈ keysOf ct ∧ ct.length ≤ MAX_CACHE_SIZE)) :
    CacheInv ⟨jsSet ss h s, jsSet ct h now⟩ := by
  by_cases hmem : h ∈ keysOf ct
  · refine ⟨?_, ?_, ?_⟩
    · rw [keysOf_jsSet_of_mem _ _ _ (by rw [hk]; exact hmem),
        keysOf_jsSet_of_mem _ _ _ hmem, hk]
    · show (keysOf (jsSet ct h now)).Nodup
      rwa [keysOf_jsSet_of_mem _ _ _ hmem]
    · show (jsSet ct h now).length ≤ MAX_CACHE_SIZE
      rw [length_jsSet_eq, if_pos hmem]
      rcases hlen with h1 | ⟨_, h2⟩
      · omega
      · exact h2
  · refine ⟨?_, ?_, ?_⟩
    · rw [keysOf_jsSet_of_not_mem _ _ _ (by rw [hk]; exact hmem),
        keysOf_jsSet_of_not_mem _ _ _ hmem, hk]
    · show (keysOf (jsSet ct h now)).Nodup
      rw [keysOf_jsSet_of_not_mem _ _ _ hmem]
      simp [List.nodup_append, hnd, hmem]
    · show (jsSet ct h now).length ≤ MAX_CACHE_SIZE
      rw [length_jsSet_eq, if_neg hmem]
      rcases hlen with h1 | ⟨h2, _⟩
      · omega
      · exact absurd h2 hmem

theorem cacheInv_updateCache (st : SiteCheckerState) (h : Hostname)
    (s : SiteStatus) (now : Nat) (hinv : CacheInv st) :
    CacheInv (updateCache st h s now) := by
  obtain ⟨hk, hnd, hlen⟩ := hinv
  have hlens : st.siteStatus.length = st.checkTimes.length := by
    simpa [keysOf] using congrArg List.length hk
  show CacheInv _
  simp only [updateCache]
  by_cases htrig : st.siteStatus.length ≥ MAX_CACHE_SIZE
  · rw [if_pos htrig]
    apply cacheInv_jsSet _ _ _ _ _ (limitCacheSize_keys st hk)
      (limitCacheSize_nodup st hnd)
    left
    rw [limitCacheSize_length st hnd]
    simp only [MAX_CACHE_SIZE, removeCount] at *
    omega
  · rw [if_neg htrig]
    apply cacheInv_jsSet _ _ _ _ _ hk hnd
    left
    omega

/-- Any sequence of `updateCache` calls replayed against the freshly
constructed checker. -/
def runUpdates (ops : List (Hostname × SiteStatus × Nat)) : SiteCheckerState :=
  ops.foldl (fun st op => updateCache st op.1 op.2.1 op.2.2) initialState

theorem cacheInv_runUpdates (ops : List (Hostname × SiteStatus × Nat)) :
    CacheInv (runUpdates ops) := by
  have hstep : ∀ (l : List (Hostname × SiteStatus × Nat)) st, CacheInv st →
      CacheInv (l.foldl (fun st op => updateCache st op.1 op.2.1 op.2.2) st) := by
    intro l
    induction l with
    | nil => exact fun st h => h
    | cons op rest ih =>
        intro st h
        exact ih _ (cacheInv_updateCache _ _ _ _ h)
  exact hstep ops initialState
    ⟨rfl, List.nodup_nil, by simp [initialState, MAX_CACHE_SIZE]⟩

/-- C7: the cache is size-evicted.  Over every sequence of `updateCache`
calls the entry count stays at most `MAX_CACHE_SIZE` (500) and both maps
hold the same hostnames; an insert that finds the cache at or above the
limit first drops the `removeCount = ceil(500 * 0.2) = 100` entries with the
oldest timestamps — every removed timestamp is at most every surviving
one — before the new entry is stored. -/
theorem cache_size_evicted :
    (∀ ops : List (Hostname × SiteStatus × Nat),
      (runUpdates ops).checkTimes.length ≤ MAX_CACHE_SIZE ∧
        keysOf (runUpdates ops).siteStatus = keysOf (runUpdates ops).checkTimes) ∧
    (removeCount = 100 ∧ MAX_CACHE_SIZE = 500) ∧
    (∀ st : SiteCheckerState, (keysOf st.checkTimes).Nodup →
      (limitCacheSize st).checkTimes.length = st.checkTimes.length - removeCount ∧
        ∀ p ∈ (sortByCheckTime st.checkTimes).take removeCount,
          ∀ q ∈ (limitCacheSize st).checkTimes, p.2 ≤ q.2) ∧
    (∀ st h s now, st.siteStatus.length ≥ MAX_CACHE_SIZE →
      updateCache st h s now =
        { siteStatus := jsSet (limitCacheSize st).siteStatus h s,
          checkTimes := jsSet (limitCacheSize st).checkTimes h now }) := by
  refine ⟨?_, ⟨rfl, rfl⟩, ?_, ?_⟩
  · intro ops
    obtain ⟨hk, _, hlen⟩ := cacheInv_runUpdates ops
    exact ⟨hlen, hk⟩
  · intro st hnd
    exact ⟨limitCacheSize_length st hnd, limitCacheSize_removes_oldest st⟩
  · intro st h s now htrig
    simp [updateCache, htrig]

/-- Witness for C7: replaying a single insert keeps the cache within
bounds, and an eviction on a full nodup cache removes 100 entries. -/
theorem cache_size_evicted_witness :
    (runUpdates [(['a'], .success, 3)]).checkTimes.length ≤ MAX_CACHE_SIZE ∧
      (limitCacheSize ⟨[(['a'], SiteStatus.success)], [(['a'], 0)]⟩).checkTimes.length =
        1 - removeCount :=
  ⟨(cache_size_evicted.1 [(['a'], .success, 3)]).1,
    (cache_size_evicted.2.2.1 ⟨[(['a'], SiteStatus.success)], [(['a'], 0)]⟩
      (by simp [keysOf])).1⟩

end SiteChecker

/-! ## The legacy regex `isLocalNetwork` (`src/js/siteChecker.js`) and its
comparison with the string-based one (C10) -/

namespace LegacySiteChecker

/-- `/^localhost$/`. -/
def reLocalhost (h : Hostname) : Bool := decide (h = "localhost".toList)

/-- A nonempty run of decimal digits, `\d+`. -/
def isDigits1 (s : List Char) : Bool := !s.isEmpty && s.all isDigitChar

/-- `/^127\.\d+\.\d+\.\d+$/`.  With `.` the only separator the pattern can
match, a string matches exactly when its dot-split has four fields, the
first literally `127` and the rest nonempty digit runs. -/
def re127 (h : Hostname) : Bool :=
  match splitOnDot h with
  | [a, b, c, d] =>
      decide (a = "127".toList) && isDigits1 b && isDigits1 c && isDigits1 d
  | _ => false

/-- `/^192\.168\.\d+\.\d+$/`, by the same dot-split reading. -/
def re192168 (h : Hostname) : Bool :=
  match splitOnDot h with
  | [a, b, c, d] =>
      decide (a = "192".toList) && decide (b = "168".toList) &&
        isDigits1 c && isDigits1 d
  | _ => false

/-- `/^10\.\d+\.\d+\.\d+$/`. -/
def re10 (h : Hostname) : Bool :=
  match splitOnDot h with
  | [a, b, c, d] =>
      decide (a = "10".toList) && isDigits1 b && isDigits1 c && isDigits1 d
  | _ => false

/-- The alternation `(1[6-9]|2\d|3[0-1])`: character ranges compare code
points. -/
def re172mid (s : List Char) : Bool :=
  match s with
  | [x, y] =>
      (decide (x = '1') && decide (54 ≤ y.toNat ∧ y.toNat ≤ 57)) ||
        (decide (x = '2') && isDigitChar y) ||
        (decide (x = '3') && decide (48 ≤ y.toNat ∧ y.toNat ≤ 49))
  | _ => false

/-- `/^172\.(1[6-9]|2\d|3[0-1])\.\d+\.\d+$/`. -/
def re172 (h : Hostname) : Bool :=
  match splitOnDot h with
  | [a, b, c, d] =>
      decide (a = "172".toList) && re172mid b && isDigits1 c && isDigits1 d
  | _ => false

/-- `isLocalNetwork(hostname)` from `src/js/siteChecker.js`:
`localPatterns.some(pattern => pattern.test(hostname))`. -/
def isLocalNetwork (h : Hostname) : Bool :=
  reLocalhost h || re127 h || re192168 h || re10 h || re172 h

end LegacySiteChecker

/-! ### Reconstructing a string from its dot-split -/

/-- Inverse of `splitOnDot`: re-join the fields with dots. -/
def intercalateDot : List (List Char) → List Char
  | [] => []
  | [s] => s
  | s :: t :: rest => s ++ '.' :: intercalateDot (t :: rest)

theorem splitOnDot_ne_nil (h : List Char) : splitOnDot h ≠ [] := by
  cases h with
  | nil => simp [splitOnDot]
  | cons c rest =>
    by_cases hc : c = '.'
    · simp [splitOnDot, hc]
    · simp only [splitOnDot, if_neg hc]
      cases e : splitOnDot rest <;> simp

theorem intercalateDot_splitOnDot (h : List Char) :
    intercalateDot (splitOnDot h) = h := by
  induction h with
  | nil => rfl
  | cons c rest ih =>
    by_cases hc : c = '.'
    · simp only [splitOnDot, if_pos hc]
      rcases e : splitOnDot rest with _ | ⟨s, ss⟩
      · exact absurd e (splitOnDot_ne_nil rest)
      · rw [e] at ih
        cases ss with
        | nil => simp [intercalateDot, hc] at ih ⊢; exact ih
        | cons t ss' => simp [intercalateDot, hc] at ih ⊢; exact ih
    · simp only [splitOnDot, if_neg hc]
      rcases e : splitOnDot rest with _ | ⟨s, ss⟩
      · exact absurd e (splitOnDot_ne_nil rest)
      · rw [e] at ih
        cases ss with
        | nil => simp [intercalateDot] at ih ⊢; exact ih
        | cons t ss' => simp [intercalateDot] at ih ⊢; exact ih

theorem splitOnDot_shape {h a t : List Char} {ts : List (List Char)}
    (e : splitOnDot h = a :: t :: ts) :
    h = a ++ '.' :: intercalateDot (t :: ts) := by
  have hr := intercalateDot_splitOnDot h
  rw [e] at hr
  exact hr.symm

theorem jsStartsWith_append (p z : List Char) :
    jsStartsWith (p ++ z) p = true := by
  induction p with
  | nil => simp [jsStartsWith]
  | cons c cs ih => simp [jsStartsWith, ih]

/-- C10 counterexample: the two `isLocalNetwork` implementations disagree —
the string version accepts `.local` suffixes and non-numeric `10.` names the
regex rejects, the regex accepts loopback quads other than `127.0.0.1` the
string version rejects. -/
theorem isLocalNetwork_implementations_disagree :
    SiteChecker.isLocalNetwork ("myhost.local".toList) = true ∧
      LegacySiteChecker.isLocalNetwork ("myhost.local".toList) = false ∧
      LegacySiteChecker.isLocalNetwork ("127.0.0.2".toList) = true ∧
      SiteChecker.isLocalNetwork ("127.0.0.2".toList) = false ∧
      SiteChecker.isLocalNetwork ("10.box".toList) = true ∧
      LegacySiteChecker.isLocalNetwork ("10.box".toList) = false := by
  refine ⟨?_, ?_, ?_, ?_, ?_, ?_⟩ <;> decide

theorem match4_eq_true {l : List (List Char)}
    {F : List Char → List Char → List Char → List Char → Bool}
    (hm : (match l with
      | [a, b, c, d] => F a b c d
      | _ => false) = true) :
    ∃ a b c d, l = [a, b, c, d] ∧ F a b c d = true := by
  rcases l with _ | ⟨a, _ | ⟨b, _ | ⟨c, _ | ⟨d, _ | ⟨x, r⟩⟩⟩⟩⟩
  · exact Bool.noConfusion hm
  · exact Bool.noConfusion hm
  · exact Bool.noConfusion hm
  · exact Bool.noConfusion hm
  · exact ⟨a, b, c, d, rfl, hm⟩
  · exact Bool.noConfusion hm

theorem parseInt10_two_digits (x y : Char)
    (hx : isDigitChar x = true) (hy : isDigitChar y = true)
    (hxs : jsIsSpace x = false) (hxm : x ≠ '-') (hxp : x ≠ '+') :
    parseInt10 [x, y] = some ((10 * digitVal x + digitVal y : Nat) : Int) := by
  unfold parseInt10
  rw [List.dropWhile_cons, if_neg (by simp [hxs])]
  show (if x = '-' then _ else if x = '+' then _ else
    (parseDigits (x :: [y])).map (fun n => (n : Int))) = _
  rw [if_neg hxm, if_neg hxp]
  unfold parseDigits
  rw [List.takeWhile_cons, if_pos hx, List.takeWhile_cons, if_pos hy]
  simp [digitsToNat]

theorem parseInt10_re172mid {m : List Char}
    (hm : LegacySiteChecker.re172mid m = true) :
    ∃ v : Int, parseInt10 m = some v ∧ 16 ≤ v ∧ v ≤ 31 := by
  rcases m with _ | ⟨x, _ | ⟨y, _ | ⟨z, r⟩⟩⟩
  · exact Bool.noConfusion hm
  · exact Bool.noConfusion hm
  · simp only [LegacySiteChecker.re172mid, Bool.or_eq_true, Bool.and_eq_true,
      decide_eq_true_eq, isDigitChar] at hm
    rcases hm with (⟨hx, hy⟩ | ⟨hx, hy⟩) | ⟨hx, hy⟩ <;> subst hx
    · refine ⟨((10 * digitVal '1' + digitVal y : Nat) : Int),
        parseInt10_two_digits '1' y (by decide)
          (by simp [isDigitChar]; omega) (by decide) (by decide) (by decide),
        ?_, ?_⟩ <;> simp [digitVal] <;> omega
    · refine ⟨((10 * digitVal '2' + digitVal y : Nat) : Int),
        parseInt10_two_digits '2' y (by decide)
          (by simp [isDigitChar]; omega) (by decide) (by decide) (by decide),
        ?_, ?_⟩ <;> simp [digitVal] <;> omega
    · refine ⟨((10 * digitVal '3' + digitVal y : Nat) : Int),
        parseInt10_two_digits '3' y (by decide)
          (by simp [isDigitChar]; omega) (by decide) (by decide) (by decide),
        ?_, ?_⟩ <;> simp [digitVal] <;> omega
  · exact Bool.noConfusion hm

theorem isLocalNetwork_of_starts192 {h : Hostname}
    (hs : jsStartsWith h ("192.168.".toList) = true) :
    SiteChecker.isLocalNetwork h = true := by
  have hcond : (decide (h = "localhost".toList) || decide (h = "127.0.0.1".toList)
      || jsStartsWith h ("192.168.".toList) || jsStartsWith h ("10.".toList)
      || jsEndsWith h (".local".toList)) = true := by
    rw [hs]
    simp
  unfold SiteChecker.isLocalNetwork
  rw [if_pos hcond]

theorem isLocalNetwork_of_starts10 {h : Hostname}
    (hs : jsStartsWith h ("10.".toList) = true) :
    SiteChecker.isLocalNetwork h = true := by
  have hcond : (decide (h = "localhost".toList) || decide (h = "127.0.0.1".toList)
      || jsStartsWith h ("192.168.".toList) || jsStartsWith h ("10.".toList)
      || jsEndsWith h (".local".toList)) = true := by
    rw [hs]
    simp
  unfold SiteChecker.isLocalNetwork
  rw [if_pos hcond]

theorem isLocalNetwork_of_172 {h : Hostname} {m c d : List Char}
    (e : splitOnDot h = ["172".toList, m, c, d])
    (hv : ∃ v : Int, parseInt10 m = some v ∧ 16 ≤ v ∧ v ≤ 31) :
    SiteChecker.isLocalNetwork h = true := by
  obtain ⟨v, hpv, h1, h2⟩ := hv
  have hstart : jsStartsWith h ("172.".toList) = true := by
    rw [splitOnDot_shape e]
    exact jsStartsWith_append ("172.".toList) (intercalateDot [m, c, d])
  unfold SiteChecker.isLocalNetwork
  split
  · rfl
  · simp [hstart, e, hpv, h1, h2]

/-- C10 amended: the two `isLocalNetwork` implementations are not
equivalent.  Away from `127.`-prefixed hostnames every hostname the regex
version accepts is also accepted by the string version, but the converse
fails (`.local` suffixes and other prefix-only matches), and on `127.`
quads other than `127.0.0.1` the regex accepts what the string version
rejects. -/
theorem isLocalNetwork_regex_within_string :
    (∀ h : Hostname, LegacySiteChecker.isLocalNetwork h = true →
      jsStartsWith h ("127.".toList) = false →
      SiteChecker.isLocalNetwork h = true) ∧
    (SiteChecker.isLocalNetwork ("myhost.local".toList) = true ∧
      LegacySiteChecker.isLocalNetwork ("myhost.local".toList) = false) ∧
    (LegacySiteChecker.isLocalNetwork ("127.0.0.2".toList) = true ∧
      SiteChecker.isLocalNetwork ("127.0.0.2".toList) = false) := by
  refine ⟨?_, ⟨by decide, by decide⟩, ⟨by decide, by decide⟩⟩
  intro h hre h127
  simp only [LegacySiteChecker.isLocalNetwork, Bool.or_eq_true] at hre
  rcases hre with (((hA | hB) | hC) | hD) | hE
  · have hh : h = "localhost".toList := by
      simpa [LegacySiteChecker.reLocalhost] using hA
    subst hh
    decide
  · exfalso
    unfold LegacySiteChecker.re127 at hB
    obtain ⟨a, b, c, d, e, hF⟩ := match4_eq_true hB
    simp only [Bool.and_eq_true, decide_eq_true_eq] at hF
    obtain ⟨⟨⟨ha, _⟩, _⟩, _⟩ := hF
    subst ha
    have hst : jsStartsWith h ("127.".toList) = true := by
      rw [splitOnDot_shape e]
      exact jsStartsWith_append ("127.".toList) (intercalateDot [b, c, d])
    rw [hst] at h127
    exact Bool.noConfusion h127
  · unfold LegacySiteChecker.re192168 at hC
    obtain ⟨a, b, c, d, e, hF⟩ := match4_eq_true hC
    simp only [Bool.and_eq_true, decide_eq_true_eq] at hF
    obtain ⟨⟨⟨ha, hb⟩, _⟩, _⟩ := hF
    subst ha; subst hb
    apply isLocalNetwork_of_starts192
    rw [splitOnDot_shape e]
    exact jsStartsWith_append ("192.168.".toList) (intercalateDot [c, d])
  · unfold LegacySiteChecker.re10 at hD
    obtain ⟨a, b, c, d, e, hF⟩ := match4_eq_true hD
    simp only [Bool.and_eq_true, decide_eq_true_eq] at hF
    obtain ⟨⟨⟨ha, _⟩, _⟩, _⟩ := hF
    subst ha
    apply isLocalNetwork_of_starts10
    rw [splitOnDot_shape e]
    exact jsStartsWith_append ("10.".toList) (intercalateDot [b, c, d])
  · unfold LegacySiteChecker.re172 at hE
    obtain ⟨a, m, c, d, e, hF⟩ := match4_eq_true hE
    simp only [Bool.and_eq_true, decide_eq_true_eq] at hF
    obtain ⟨⟨⟨ha, hmid⟩, _⟩, _⟩ := hF
    subst ha
    exact isLocalNetwork_of_172 e (parseInt10_re172mid hmid)

/-- Witness for the amended C10 at a concrete regex-accepted hostname. -/
theorem isLocalNetwork_regex_within_string_witness :
    SiteChecker.isLocalNetwork ("192.168.0.7".toList) = true :=
  isLocalNetwork_regex_within_string.1 ("192.168.0.7".toList)
    (by decide) (by decide)

/-! ## Saved-order reconciliation, generically

Both `renderOrderedBookmarks` and `determineColumnOrder` render the items
matched by the saved order first and the unmatched live items after; the
permutation argument is shared, parameterised by the key function. -/

section KeyedReconcile

variable {α : Type} [DecidableEq α] (key : α → String)

theorem filterMap_congr_mem {β γ : Type} {f g : β → Option γ} {l : List β}
    (h : ∀ a ∈ l, f a = g a) : l.filterMap f = l.filterMap g := by
  induction l with
  | nil => rfl
  | cons a l ih =>
    rw [List.filterMap_cons, List.filterMap_cons, h a (List.mem_cons_self a l),
      ih (fun b hb => h b (List.mem_cons_of_mem a hb))]

theorem find?_erase_of_key_ne {k k' : String} (c : α) (hkc : key c = k)
    (hne : k' ≠ k) (L : List α) :
    (L.erase c).find? (fun x => decide (key x = k')) =
      L.find? (fun x => decide (key x = k')) := by
  induction L with
  | nil => simp
  | cons y ys ih =>
    rw [List.erase_cons]
    by_cases hyc : y = c
    · subst hyc
      rw [if_pos (by simp)]
      have : decide (key y = k') = false := by
        simp [hkc]
        exact fun e => hne e.symm
      rw [List.find?_cons, this]
    · rw [if_neg (by simp [hyc])]
      rw [List.find?_cons, List.find?_cons]
      cases hp : decide (key y = k')
      · exact ih
      · rfl

theorem filter_notin_erase {k : String} {rest : List String} {c : α}
    {L : List α} (hnd : (L.map key).Nodup) (hc : c ∈ L) (hkc : key c = k) :
    L.filter (fun x => !((k :: rest).contains (key x))) =
      (L.erase c).filter (fun x => !(rest.contains (key x))) := by
  induction L with
  | nil => simp at hc
  | cons y ys ih =>
    rw [List.map_cons, List.nodup_cons] at hnd
    rw [List.erase_cons]
    by_cases hyc : y = c
    · subst hyc
      rw [if_pos (by simp)]
      have hkeq : key y = k := hkc
      rw [List.filter_cons, if_neg (by simp [hkeq])]
      apply List.filter_congr
      intro x hx
      have hxk : key x ≠ k := by
        intro e
        exact hnd.1 (List.mem_map.mpr ⟨x, hx, by rw [e, hkeq]⟩)
      simp [hxk]
    · rw [if_neg (by simp [hyc])]
      have hcys : c ∈ ys := by
        rcases List.mem_cons.mp hc with h | h
        · exact absurd h.symm hyc
        · exact h
      have hyk : key y ≠ k := by
        intro e
        exact hnd.1 (List.mem_map.mpr ⟨c, hcys, by rw [hkc, e]⟩)
      rw [List.filter_cons, List.filter_cons]
      have hco : ((k :: rest).contains (key y)) = (rest.contains (key y)) := by
        simp [hyk]
      rw [hco, ih hnd.2 hcys]

theorem perm_reconcile (L : List α) (s : List String)
    (hnd : (L.map key).Nodup) (hs : s.Nodup) :
    List.Perm
      (s.filterMap (fun k => L.find? (fun x => decide (key x = k))) ++
        L.filter (fun x => !(s.contains (key x))))
      L := by
  suffices hgen : ∀ (t : List String), t.Nodup → ∀ (M : List α),
      (M.map key).Nodup →
      List.Perm
        (t.filterMap (fun k => M.find? (fun x => decide (key x = k))) ++
          M.filter (fun x => !(t.contains (key x))))
        M by
    exact hgen s hs L hnd
  intro t
  induction t with
  | nil =>
    intro _ M _
    simp
  | cons k rest ih =>
    intro hsnd M hnd
    obtain ⟨hk, hrest⟩ := List.nodup_cons.mp hsnd
    rcases e : M.find? (fun x => decide (key x = k)) with _ | c
    · have hnone : ∀ x ∈ M, key x ≠ k := by
        intro x hx
        have := List.find?_eq_none.mp e x hx
        simpa using this
      rw [List.filterMap_cons, e]
      have hfil : M.filter (fun x => !((k :: rest).contains (key x))) =
          M.filter (fun x => !(rest.contains (key x))) := by
        apply List.filter_congr
        intro x hx
        simp [hnone x hx]
      rw [hfil]
      exact ih hrest M hnd
    · have hcL : c ∈ M := List.mem_of_find?_eq_some e
      have hkc : key c = k := by
        have := List.find?_some e
        simpa using this
      rw [List.filterMap_cons, e]
      have hfm : rest.filterMap (fun k' => M.find? (fun x => decide (key x = k'))) =
          rest.filterMap (fun k' => (M.erase c).find? (fun x => decide (key x = k'))) := by
        apply filterMap_congr_mem
        intro k' hk'
        exact (find?_erase_of_key_ne key c hkc
          (fun e' => hk (e' ▸ hk')) M).symm
      rw [hfm, filter_notin_erase key hnd hcL hkc]
      have hnd' : ((M.erase c).map key).Nodup :=
        hnd.sublist ((M.erase_sublist c).map key)
      have hperm := ih hrest (M.erase c) hnd'
      have h1 : List.Perm
          (c :: rest.filterMap (fun k' => (M.erase c).find? (fun x => decide (key x = k'))) ++
            (M.erase c).filter (fun x => !(rest.contains (key x))))
          (c :: M.erase c) := by
        rw [List.cons_append]
        exact hperm.cons c
      exact h1.trans (List.perm_cons_erase hcL).symm

end KeyedReconcile

/-! ## `renderOrderedBookmarks` (`src/js/modules/ui/ColumnManager.js`, C1)

`bookmarkMap` is a plain JS object keyed by bookmark IDs, so its
`Object.values` enumeration follows the ECMAScript own-property-key order:
keys that are array indices (canonical decimal strings below `2^32 - 1`)
ascending numerically, then the remaining keys in insertion order.  Chrome
bookmark IDs are decimal strings, so this is what decides the order of the
bookmarks appended after the saved-order pass. -/

namespace ColumnManager

/-- A live bookmark node handed to `renderOrderedBookmarks`: its Chrome
`id` and its `url` (absent on folders; the code tests JS truthiness, so the
empty string also counts as no URL). -/
structure Bookmark where
  id : String
  url : Option String
deriving DecidableEq, Repr

/-- Truthiness of `bookmark.url`. -/
def hasUrl (b : Bookmark) : Bool :=
  match b.url with
  | some u => !u.isEmpty
  | none => false

/-- ECMAScript array-index keys: `"0"`, or a digit string without a leading
zero whose value is below `2^32 - 1`; other strings are ordinary keys. -/
def isArrayIndexKey (s : String) : Option Nat :=
  match s.toList with
  | [] => none
  | ['0'] => some 0
  | c :: rest =>
    if c ≠ '0' ∧ (c :: rest).all isDigitChar then
      if digitsToNat (c :: rest) < 4294967295 then
        some (digitsToNat (c :: rest))
      else none
    else none

/-- The numeric value an array-index key sorts by. -/
def jsKeyVal (k : String) : Nat := (isArrayIndexKey k).getD 0

/-- `Object.values(o)`: array-index keys first, ascending numerically
(valid objects have distinct keys, so any correct sort gives JS's order),
then the other keys in insertion order. -/
def objValues {α : Type} (m : List (String × α)) : List α :=
  ((m.filter (fun p => (isArrayIndexKey p.1).isSome)).insertionSort
      (fun a b => jsKeyVal a.1 ≤ jsKeyVal b.1)).map Prod.snd ++
    (m.filter (fun p => !(isArrayIndexKey p.1).isSome)).map Prod.snd

/-- The `bookmarkMap` construction: `bookmarks.forEach(b => { if (b.url)
bookmarkMap[b.id] = b; })`. -/
def buildMap (bookmarks : List Bookmark) : List (String × Bookmark) :=
  bookmarks.foldl (fun m b => if hasUrl b then jsSet m b.id b else m) []

/-- The `savedOrder.forEach` pass: look each saved ID up in the map, render
it on a hit and delete it from the map so a duplicated saved ID renders only
once.  Returns the bookmarks rendered by this pass and the residual map. -/
def savedLoop (m : List (String × Bookmark)) :
    List String → List Bookmark × List (String × Bookmark)
  | [] => ([], m)
  | bid :: rest =>
    match jsGet m bid with
    | some b =>
      let r := savedLoop (jsDelete m bid) rest
      (b :: r.1, r.2)
    | none => savedLoop m rest

/-- `renderOrderedBookmarks(bookmarks, container, savedOrder)` as the
sequence of bookmarks appended to the container: the saved-order pass first,
then `Object.values` of the residual map. -/
def renderOrderedBookmarks (bookmarks : List Bookmark)
    (savedOrder : List String) : List Bookmark :=
  let lp := savedLoop (buildMap bookmarks) savedOrder
  lp.1 ++ objValues lp.2

/-- Keep the first occurrence of every ID (how the delete-on-render pass
treats duplicated saved IDs). -/
def dedupKeepFirst : List String → List String
  | [] => []
  | x :: xs => x :: dedupKeepFirst (xs.filter (fun y => decide (y ≠ x)))
termination_by l => l.length
decreasing_by
  exact Nat.lt_succ_of_le (List.length_filter_le _ _)

/-- The association list a list of distinct-ID bookmarks builds. -/
def assocOf (l : List Bookmark) : List (String × Bookmark) :=
  l.map (fun b => (b.id, b))

theorem jsSet_append_of_not_mem {κ β : Type} [DecidableEq κ]
    (m : List (κ × β)) (k : κ) (v : β) (h : k ∉ keysOf m) :
    jsSet m k v = m ++ [(k, v)] := by
  induction m with
  | nil => rfl
  | cons p rest ih =>
    simp only [mem_keysOf_cons] at h
    push_neg at h
    have hp : p.1 ≠ k := fun e => h.1 e.symm
    rw [jsSet, if_neg hp, ih h.2]
    rfl

theorem buildMap_go (bs : List Bookmark) (acc : List (String × Bookmark))
    (hdisj : ∀ b ∈ bs, b.id ∉ keysOf acc)
    (hnd : (bs.map Bookmark.id).Nodup) :
    bs.foldl (fun m b => if hasUrl b then jsSet m b.id b else m) acc =
      acc ++ assocOf (bs.filter hasUrl) := by
  induction bs generalizing acc with
  | nil => simp [assocOf]
  | cons b rest ih =>
    rw [List.map_cons, List.nodup_cons] at hnd
    rw [List.foldl_cons]
    by_cases hu : hasUrl b
    · rw [if_pos hu,
        jsSet_append_of_not_mem acc b.id b (hdisj b (List.mem_cons_self b rest))]
      rw [ih (acc ++ [(b.id, b)]) ?_ hnd.2]
      · rw [List.filter_cons, if_pos hu]
        simp [assocOf]
      · intro b' hb'
        have h1 : b'.id ∉ keysOf acc := hdisj b' (List.mem_cons_of_mem b hb')
        have h2 : b'.id ≠ b.id := by
          intro e
          exact hnd.1 (e ▸ List.mem_map.mpr ⟨b', hb', rfl⟩)
        simp only [keysOf, List.map_append, List.mem_append]
        rintro (hmem | hmem)
        · exact h1 hmem
        · simp at hmem
          exact h2 hmem
    · rw [if_neg hu, ih acc (fun b' hb' => hdisj b' (List.mem_cons_of_mem b hb')) hnd.2,
        List.filter_cons, if_neg hu]

theorem buildMap_eq (bookmarks : List Bookmark)
    (hnd : (bookmarks.map Bookmark.id).Nodup) :
    buildMap bookmarks = assocOf (bookmarks.filter hasUrl) := by
  have := buildMap_go bookmarks [] (by simp [keysOf]) hnd
  simpa [buildMap] using this

theorem jsGet_assocOf (live : List Bookmark) (bid : String) :
    jsGet (assocOf live) bid = live.find? (fun b => decide (b.id = bid)) := by
  induction live with
  | nil => rfl
  | cons b bs ih =>
    rw [assocOf, List.map_cons, jsGet, List.find?_cons]
    by_cases h : b.id = bid
    · simp [h]
    · simp only [h, if_neg h, decide_eq_true_eq]
      rw [if_neg (by simpa using h)]
      exact ih

theorem jsDelete_assocOf (live : List Bookmark) (bid : String) :
    jsDelete (assocOf live) bid =
      assocOf (live.filter (fun b => decide (b.id ≠ bid))) := by
  unfold jsDelete assocOf
  rw [List.filter_map]
  rfl

theorem find?_filter_ne (live : List Bookmark) {bid bid' : String}
    (hne : bid' ≠ bid) :
    (live.filter (fun b => decide (b.id ≠ bid))).find?
        (fun b => decide (b.id = bid')) =
      live.find? (fun b => decide (b.id = bid')) := by
  induction live with
  | nil => rfl
  | cons y ys ih =>
    rw [List.filter_cons]
    by_cases hy : y.id = bid
    · rw [if_neg (by simp [hy])]
      rw [List.find?_cons, show decide (y.id = bid') = false by simp [hy]; exact fun e => hne e.symm]
      exact ih
    · rw [if_pos (by simpa using hy)]
      rw [List.find?_cons, List.find?_cons]
      cases hp : decide (y.id = bid')
      · exact ih
      · rfl

theorem dedupKeepFirst_nil : dedupKeepFirst [] = [] := by
  rw [dedupKeepFirst]

theorem dedupKeepFirst_cons (x : String) (xs : List String) :
    dedupKeepFirst (x :: xs) =
      x :: dedupKeepFirst (xs.filter (fun y => decide (y ≠ x))) := by
  rw [dedupKeepFirst]

theorem mem_dedupKeepFirst (a : String) (l : List String) :
    a ∈ dedupKeepFirst l ↔ a ∈ l := by
  have H : ∀ (n : Nat) (l : List String), l.length = n →
      (a ∈ dedupKeepFirst l ↔ a ∈ l) := by
    intro n
    induction n using Nat.strong_induction_on with
    | _ n ih =>
      intro l hn
      cases l with
      | nil => simp [dedupKeepFirst_nil]
      | cons x xs =>
        have hlt : (xs.filter (fun y => decide (y ≠ x))).length < n := by
          rw [← hn, List.length_cons]
          exact Nat.lt_succ_of_le (List.length_filter_le _ _)
        rw [dedupKeepFirst_cons, List.mem_cons, List.mem_cons, ih _ hlt _ rfl]
        by_cases hax : a = x
        · simp [hax]
        · simp [hax]
  exact H l.length l rfl

theorem nodup_dedupKeepFirst (l : List String) : (dedupKeepFirst l).Nodup := by
  have H : ∀ (n : Nat) (l : List String), l.length = n →
      (dedupKeepFirst l).Nodup := by
    intro n
    induction n using Nat.strong_induction_on with
    | _ n ih =>
      intro l hn
      cases l with
      | nil => rw [dedupKeepFirst_nil]; exact List.nodup_nil
      | cons x xs =>
        have hlt : (xs.filter (fun y => decide (y ≠ x))).length < n := by
          rw [← hn, List.length_cons]
          exact Nat.lt_succ_of_le (List.length_filter_le _ _)
        rw [dedupKeepFirst_cons, List.nodup_cons]
        constructor
        · rw [mem_dedupKeepFirst]
          simp
        · exact ih _ hlt _ rfl
  exact H l.length l rfl

theorem dedup_filter_comm (x : String) (l : List String) :
    dedupKeepFirst (l.filter (fun y => decide (y ≠ x))) =
      (dedupKeepFirst l).filter (fun y => decide (y ≠ x)) := by
  have H : ∀ (n : Nat) (l : List String), l.length = n →
      dedupKeepFirst (l.filter (fun y => decide (y ≠ x))) =
        (dedupKeepFirst l).filter (fun y => decide (y ≠ x)) := by
    intro n
    induction n using Nat.strong_induction_on with
    | _ n ih =>
      intro l hn
      cases l with
      | nil => rw [List.filter_nil, dedupKeepFirst_nil, List.filter_nil]
      | cons y ys =>
        have hlt : (ys.filter (fun z => decide (z ≠ y))).length < n := by
          rw [← hn, List.length_cons]
          exact Nat.lt_succ_of_le (List.length_filter_le _ _)
        rw [List.filter_cons]
        by_cases hyx : y = x
        · rw [if_neg (by simp [hyx])]
          subst hyx
          rw [dedupKeepFirst_cons, List.filter_cons, if_neg (by simp)]
          symm
          apply List.filter_eq_self.mpr
          intro a ha
          have hmem := (mem_dedupKeepFirst a _).mp ha
          have := List.of_mem_filter hmem
          simpa using this
        · rw [if_pos (by simpa using hyx)]
          rw [dedupKeepFirst_cons, dedupKeepFirst_cons, List.filter_cons,
            if_pos (by simpa using hyx)]
          congr 1
          rw [List.filter_comm]
          rw [ih _ hlt _ rfl]
  exact H l.length l rfl

theorem filterMap_skip {γ : Type} (f : String → Option γ) (x : String)
    (hf : f x = none) (l : List String) :
    (l.filter (fun y => decide (y ≠ x))).filterMap f = l.filterMap f := by
  induction l with
  | nil => rfl
  | cons y ys ih =>
    rw [List.filter_cons]
    by_cases hyx : y = x
    · rw [if_neg (by simp [hyx])]
      rw [List.filterMap_cons, hyx, hf]
      exact ih
    · rw [if_pos (by simpa using hyx)]
      rw [List.filterMap_cons, List.filterMap_cons]
      cases f y
      · exact ih
      · rw [ih]

theorem savedLoop_spec (s : List String) :
    ∀ (live : List Bookmark), (live.map Bookmark.id).Nodup →
      savedLoop (assocOf live) s =
        ((dedupKeepFirst s).filterMap
            (fun bid => live.find? (fun b => decide (b.id = bid))),
          assocOf (live.filter (fun b => !(s.contains b.id)))) := by
  induction s with
  | nil =>
    intro live _
    rw [savedLoop, dedupKeepFirst_nil, List.filterMap_nil]
    have : live.filter (fun b => !(([] : List String).contains b.id)) = live := by
      apply List.filter_eq_self.mpr
      intro a _
      simp
    rw [this]
  | cons bid rest ih =>
    intro live hnd
    rw [savedLoop, jsGet_assocOf]
    rcases e : live.find? (fun b => decide (b.id = bid)) with _ | b
    · simp only [e]
      have hnone : ∀ x ∈ live, x.id ≠ bid := by
        intro x hx
        have := List.find?_eq_none.mp e x hx
        simpa using this
      rw [ih live hnd]
      have h1 : (dedupKeepFirst (bid :: rest)).filterMap
          (fun bid' => live.find? (fun b => decide (b.id = bid'))) =
          (dedupKeepFirst rest).filterMap
            (fun bid' => live.find? (fun b => decide (b.id = bid'))) := by
        rw [dedupKeepFirst_cons, List.filterMap_cons, e, dedup_filter_comm,
          filterMap_skip _ bid e]
      have h2 : live.filter (fun b => !((bid :: rest).contains b.id)) =
          live.filter (fun b => !(rest.contains b.id)) := by
        apply List.filter_congr
        intro x hx
        simp [hnone x hx]
      rw [h1, h2]
    · simp only [e]
      rw [jsDelete_assocOf]
      have hnd' : ((live.filter (fun x => decide (x.id ≠ bid))).map
          Bookmark.id).Nodup :=
        hnd.sublist ((List.filter_sublist live).map Bookmark.id)
      rw [ih _ hnd']
      have hkfst : (dedupKeepFirst (bid :: rest)).filterMap
          (fun bid' => live.find? (fun b => decide (b.id = bid'))) =
          b :: (dedupKeepFirst rest).filterMap
            (fun bid' => (live.filter (fun x => decide (x.id ≠ bid))).find?
              (fun b => decide (b.id = bid'))) := by
        rw [dedupKeepFirst_cons, List.filterMap_cons, e]
        congr 1
        rw [dedup_filter_comm]
        have hnonef : (live.filter (fun x => decide (x.id ≠ bid))).find?
            (fun b => decide (b.id = bid)) = none := by
          apply List.find?_eq_none.mpr
          intro x hx
          have := List.of_mem_filter hx
          simpa using this
        have hcongr : ((dedupKeepFirst rest).filter
              (fun y => decide (y ≠ bid))).filterMap
            (fun bid' => live.find? (fun b => decide (b.id = bid'))) =
            ((dedupKeepFirst rest).filter
              (fun y => decide (y ≠ bid))).filterMap
              (fun bid' => (live.filter (fun x => decide (x.id ≠ bid))).find?
                (fun b => decide (b.id = bid'))) := by
          apply filterMap_congr_mem
          intro bid' hbid'
          have hne : bid' ≠ bid := by
            have := List.of_mem_filter hbid'
            simpa using this
          exact (find?_filter_ne live hne).symm
        rw [hcongr, filterMap_skip _ bid hnonef]
      have hsnd : (live.filter (fun x => decide (x.id ≠ bid))).filter
          (fun b => !(rest.contains b.id)) =
          live.filter (fun b => !((bid :: rest).contains b.id)) := by
        rw [List.filter_filter]
        apply List.filter_congr
        intro x _
        by_cases hx : x.id = bid
        · simp [hx]
        · simp [hx]
      rw [hkfst, hsnd]

theorem objValues_perm {β : Type} (m : List (String × β)) :
    List.Perm (objValues m) (m.map Prod.snd) := by
  unfold objValues
  have h1 : List.Perm
      ((m.filter (fun p => (isArrayIndexKey p.1).isSome)).insertionSort
        (fun a b => jsKeyVal a.1 ≤ jsKeyVal b.1))
      (m.filter (fun p => (isArrayIndexKey p.1).isSome)) :=
    List.perm_insertionSort _ _
  have h2 : List.Perm
      (((m.filter (fun p => (isArrayIndexKey p.1).isSome)).insertionSort
          (fun a b => jsKeyVal a.1 ≤ jsKeyVal b.1)).map Prod.snd ++
        (m.filter (fun p => !(isArrayIndexKey p.1).isSome)).map Prod.snd)
      ((m.filter (fun p => (isArrayIndexKey p.1).isSome)).map Prod.snd ++
        (m.filter (fun p => !(isArrayIndexKey p.1).isSome)).map Prod.snd) :=
    (h1.map Prod.snd).append_right _
  refine h2.trans ?_
  rw [← List.map_append]
  exact (List.filter_append_perm _ m).map Prod.snd

theorem assocOf_map_snd (l : List Bookmark) :
    (assocOf l).map Prod.snd = l := by
  unfold assocOf
  rw [List.map_map]
  exact List.map_id l

theorem contains_dedupKeepFirst (a : String) (l : List String) :
    (dedupKeepFirst l).contains a = l.contains a := by
  by_cases h : a ∈ l
  · have h2 : a ∈ dedupKeepFirst l := (mem_dedupKeepFirst a l).mpr h
    simp [h, h2]
  · have h2 : a ∉ dedupKeepFirst l := fun hx => h ((mem_dedupKeepFirst a l).mp hx)
    simp [h, h2]

/-- C1 counterexample: with live URL-bookmarks `id "2"` then `id "1"` and an
empty saved order, `renderOrderedBookmarks` renders `"1"` before `"2"` —
ascending JS object key order — not the live order, so the claim's "every
remaining live URL-bookmark in its live order" fails. -/
theorem renderOrderedBookmarks_not_live_order :
    renderOrderedBookmarks [⟨"2", some "u"⟩, ⟨"1", some "v"⟩] [] =
        [⟨"1", some "v"⟩, ⟨"2", some "u"⟩] ∧
      renderOrderedBookmarks [⟨"2", some "u"⟩, ⟨"1", some "v"⟩] [] ≠
        [⟨"2", some "u"⟩, ⟨"1", some "v"⟩] := by
  constructor <;> decide

/-- C1 amended: for live bookmarks with distinct IDs,
`renderOrderedBookmarks` renders exactly the live URL-bookmarks, each once
(a permutation of them): first those whose IDs appear in the saved order, in
saved-order sequence with absent IDs skipped and duplicated IDs rendered
once, then the remaining live URL-bookmarks in JS `Object.values` key order
(array-index IDs ascending numerically, then insertion order) rather than
strictly live order. -/
theorem renderOrderedBookmarks_reconciles (bookmarks : List Bookmark)
    (savedOrder : List String)
    (hnd : (bookmarks.map Bookmark.id).Nodup) :
    List.Perm (renderOrderedBookmarks bookmarks savedOrder)
        (bookmarks.filter hasUrl) ∧
      renderOrderedBookmarks bookmarks savedOrder =
        (dedupKeepFirst savedOrder).filterMap
            (fun bid => (bookmarks.filter hasUrl).find?
              (fun b => decide (b.id = bid))) ++
          objValues (assocOf ((bookmarks.filter hasUrl).filter
            (fun b => !(savedOrder.contains b.id)))) := by
  have hndu : ((bookmarks.filter hasUrl).map Bookmark.id).Nodup :=
    hnd.sublist ((List.filter_sublist bookmarks).map Bookmark.id)
  have hbm : buildMap bookmarks = assocOf (bookmarks.filter hasUrl) :=
    buildMap_eq bookmarks hnd
  have hsl := savedLoop_spec savedOrder (bookmarks.filter hasUrl) hndu
  have hre : renderOrderedBookmarks bookmarks savedOrder =
      (dedupKeepFirst savedOrder).filterMap
          (fun bid => (bookmarks.filter hasUrl).find?
            (fun b => decide (b.id = bid))) ++
        objValues (assocOf ((bookmarks.filter hasUrl).filter
          (fun b => !(savedOrder.contains b.id)))) := by
    unfold renderOrderedBookmarks
    rw [hbm, hsl]
  refine ⟨?_, hre⟩
  rw [hre]
  have hval : List.Perm
      (objValues (assocOf ((bookmarks.filter hasUrl).filter
        (fun b => !(savedOrder.contains b.id)))))
      ((bookmarks.filter hasUrl).filter
        (fun b => !(savedOrder.contains b.id))) := by
    have := objValues_perm (assocOf ((bookmarks.filter hasUrl).filter
      (fun b => !(savedOrder.contains b.id))))
    rwa [assocOf_map_snd] at this
  have happ : List.Perm
      ((dedupKeepFirst savedOrder).filterMap
          (fun bid => (bookmarks.filter hasUrl).find?
            (fun b => decide (b.id = bid))) ++
        objValues (assocOf ((bookmarks.filter hasUrl).filter
          (fun b => !(savedOrder.contains b.id)))))
      ((dedupKeepFirst savedOrder).filterMap
          (fun bid => (bookmarks.filter hasUrl).find?
            (fun b => decide (b.id = bid))) ++
        (bookmarks.filter hasUrl).filter
          (fun b => !(savedOrder.contains b.id))) :=
    hval.append_left _
  refine happ.trans ?_
  have hfc : (bookmarks.filter hasUrl).filter
      (fun b => !(savedOrder.contains b.id)) =
      (bookmarks.filter hasUrl).filter
        (fun b => !((dedupKeepFirst savedOrder).contains b.id)) := by
    apply List.filter_congr
    intro x _
    rw [contains_dedupKeepFirst]
  rw [hfc]
  exact perm_reconcile Bookmark.id (bookmarks.filter hasUrl)
    (dedupKeepFirst savedOrder) hndu (nodup_dedupKeepFirst savedOrder)

/-- Witness for the amended C1 on a concrete two-bookmark column. -/
theorem renderOrderedBookmarks_reconciles_witness :
    List.Perm (renderOrderedBookmarks
        [⟨"2", some "u"⟩, ⟨"1", some "v"⟩, ⟨"3", none⟩] ["1", "9"])
      ([⟨"2", some "u"⟩, ⟨"1", some "v"⟩, ⟨"3", none⟩].filter hasUrl) :=
  (renderOrderedBookmarks_reconciles
    [⟨"2", some "u"⟩, ⟨"1", some "v"⟩, ⟨"3", none⟩] ["1", "9"]
    (by decide)).1

end ColumnManager

/-! ## `determineColumnOrder` (`src/js/modules/ui/KanbanRenderer.js`, C2) -/

namespace KanbanRenderer

/-- The three shapes `processBookmarkTree` pushes into `columnsData`. -/
inductive ColType where
  | folder
  | uncategorized
  | special
deriving DecidableEq, Repr

/-- One entry of `columnsData`.  `id` embeds `col.data.id` for folder and
special columns; the uncategorized column's `data` is a bookmark array
without an `id`, so the field is never consulted for it. -/
structure ColumnData where
  ctype : ColType
  id : String
deriving DecidableEq, Repr

/-- The identifier a column is saved under: `'uncategorized'` for the
uncategorized column, the folder ID otherwise — the `columnId` computed by
the second loop of `determineColumnOrder`. -/
def colId (c : ColumnData) : String :=
  if c.ctype = ColType.uncategorized then "uncategorized" else c.id

/-- The `find` inside the first loop of `determineColumnOrder`. -/
def findMatch (columnsData : List ColumnData) (cid : String) :
    Option ColumnData :=
  if cid = "uncategorized" then
    columnsData.find? (fun col => decide (col.ctype = ColType.uncategorized))
  else
    columnsData.find? (fun col =>
      (decide (col.ctype = ColType.folder) ||
        decide (col.ctype = ColType.special)) && decide (col.id = cid))

/-- `determineColumnOrder(columnsData, savedColumnOrder)`: the original
order when no saved order exists or it is empty; otherwise the saved-order
matches first, then the columns whose truthy `columnId` is not in the saved
order (an entry with a falsy `columnId` — the empty string — is always
re-pushed by the `else if (!columnId)` arm). -/
def determineColumnOrder (columnsData : List ColumnData)
    (saved : Option (List String)) : List ColumnData :=
  match saved with
  | none => columnsData
  | some s =>
    if s.isEmpty then columnsData
    else
      s.filterMap (findMatch columnsData) ++
        columnsData.filter (fun col =>
          (decide (colId col ≠ "") && !(s.contains (colId col))) ||
            decide (colId col = ""))

theorem find?_congr_mem {β : Type} {p q : β → Bool} {l : List β}
    (h : ∀ a ∈ l, p a = q a) : l.find? p = l.find? q := by
  induction l with
  | nil => rfl
  | cons a l ih =>
    rw [List.find?_cons, List.find?_cons, h a (List.mem_cons_self a l)]
    cases q a
    · exact ih (fun b hb => h b (List.mem_cons_of_mem a hb))
    · rfl

/-- The sanity conditions tree-derived `columnsData` satisfies: no
folder/special column uses the reserved ID `'uncategorized'` or the empty
string. -/
def SaneColumns (columnsData : List ColumnData) : Prop :=
  ∀ c ∈ columnsData, c.ctype ≠ ColType.uncategorized →
    c.id ≠ "uncategorized" ∧ c.id ≠ ""

theorem findMatch_eq_find_colId {columnsData : List ColumnData}
    (hsane : SaneColumns columnsData) (cid : String) :
    findMatch columnsData cid =
      columnsData.find? (fun c => decide (colId c = cid)) := by
  unfold findMatch
  by_cases hcid : cid = "uncategorized"
  · subst hcid
    rw [if_pos rfl]
    apply find?_congr_mem
    intro c hc
    by_cases hu : c.ctype = ColType.uncategorized
    · simp [hu, colId]
    · have := (hsane c hc hu).1
      simp [hu, colId, this]
  · rw [if_neg hcid]
    apply find?_congr_mem
    intro c hc
    cases he : c.ctype with
    | uncategorized => simp [he, colId, Ne.symm hcid]
    | folder => simp [he, colId]
    | special => simp [he, colId]

/-- C2 counterexample: a saved order that repeats the single live column's
ID makes `determineColumnOrder` render it twice, so the result is not a
permutation of the live columns. -/
theorem determineColumnOrder_duplicate_saved :
    determineColumnOrder [⟨ColType.folder, "4"⟩] (some ["4", "4"]) =
        [⟨ColType.folder, "4"⟩, ⟨ColType.folder, "4"⟩] ∧
      ¬ List.Perm (determineColumnOrder [⟨ColType.folder, "4"⟩]
          (some ["4", "4"])) [⟨ColType.folder, "4"⟩] := by
  constructor
  · decide
  · decide

/-- C2 amended: for live columns derived from the bookmark tree (distinct
effective IDs, no folder/special column named `'uncategorized'` or `''`) and
a saved order without duplicate IDs, `determineColumnOrder` returns a
permutation of the live columns: the original order when the saved order is
null or empty, otherwise the saved-order matches in saved sequence with
absent IDs skipped, followed by the unmatched live columns in live order. -/
theorem determineColumnOrder_reconciles (columnsData : List ColumnData)
    (saved : Option (List String))
    (hnd : (columnsData.map colId).Nodup)
    (hsane : SaneColumns columnsData)
    (hsnd : ∀ s, saved = some s → s.Nodup) :
    List.Perm (determineColumnOrder columnsData saved) columnsData ∧
      (∀ s, saved = some s → s ≠ [] →
        determineColumnOrder columnsData saved =
          s.filterMap (fun cid => columnsData.find?
              (fun c => decide (colId c = cid))) ++
            columnsData.filter (fun c => !(s.contains (colId c)))) ∧
      ((saved = none ∨ saved = some []) →
        determineColumnOrder columnsData saved = columnsData) := by
  have hform : ∀ s, saved = some s → s ≠ [] →
      determineColumnOrder columnsData saved =
        s.filterMap (fun cid => columnsData.find?
            (fun c => decide (colId c = cid))) ++
          columnsData.filter (fun c => !(s.contains (colId c))) := by
    intro s hs hne
    subst hs
    simp only [determineColumnOrder]
    rw [if_neg (by simpa using hne)]
    congr 1
    · apply filterMap_congr_mem
      intro cid _
      exact findMatch_eq_find_colId hsane cid
    · apply List.filter_congr
      intro c hc
      have hid : colId c ≠ "" := by
        by_cases hu : c.ctype = ColType.uncategorized
        · simp [colId, hu]
        · have := (hsane c hc hu).2
          simp [colId, hu, this]
      simp [hid]
  refine ⟨?_, hform, ?_⟩
  · cases saved with
    | none => exact List.Perm.refl _
    | some s =>
      cases s with
      | nil => exact List.Perm.refl _
      | cons k rest =>
        rw [hform (k :: rest) rfl (by simp)]
        exact perm_reconcile colId columnsData (k :: rest) hnd
          (hsnd (k :: rest) rfl)
  · rintro (h | h) <;> subst h <;> rfl

/-- Witness for the amended C2 on a concrete two-column board. -/
theorem determineColumnOrder_reconciles_witness :
    List.Perm (determineColumnOrder
        [⟨ColType.folder, "4"⟩, ⟨ColType.uncategorized, ""⟩]
        (some ["uncategorized", "9"]))
      [⟨ColType.folder, "4"⟩, ⟨ColType.uncategorized, ""⟩] :=
  (determineColumnOrder_reconciles
    [⟨ColType.folder, "4"⟩, ⟨ColType.uncategorized, ""⟩]
    (some ["uncategorized", "9"])
    (by decide)
    (by
      intro c hc hu
      rcases List.mem_cons.mp hc with h | h
      · subst h
        exact ⟨by decide, by decide⟩
      · rcases List.mem_cons.mp h with h2 | h2
        · subst h2
          exact absurd rfl hu
        · simp at h2)
    (by intro s hs; cases hs; decide)).1

end KanbanRenderer

/-! ## `checkAllBookmarks` in the background service worker (C9)

`new URL(bookmark.url)` and `siteChecker.checkSite(url.hostname)` are
oracle parameters: `urlParse` returns the parsed hostname or `none` when the
constructor throws, `check` is the settled outcome of one bookmark's check
(`.error ()` when it threw, which the `catch` records as `false`).  Within
one batch the ten promise callbacks interleave, but bookmark IDs are
distinct, so every interleaving writes the same `results` map; the embedding
fixes the in-batch order. -/

namespace Background

/-- A `chrome.bookmarks` tree node: `id`, optional `url`, optional
`children` (present — possibly empty — exactly on folders; JS tests the
array's truthiness, and an array is always truthy). -/
inductive BNode where
  | node : String → Option String → Option (List BNode) → BNode

def BNode.id : BNode → String
  | .node i _ _ => i

def BNode.url : BNode → Option String
  | .node _ u _ => u

/-- `traverseBookmarks`: descend into `children` when present, otherwise
hand the leaf to the callback; collects the visited leaves in visit order. -/
def traverseCollect : List BNode → List BNode
  | [] => []
  | BNode.node i u none :: rest =>
    BNode.node i u none :: traverseCollect rest
  | BNode.node i u (some cs) :: rest =>
    traverseCollect cs ++ traverseCollect rest

/-- Truthiness of `bookmark.url` on a visited leaf. -/
def urlTruthy (b : BNode) : Bool :=
  match b.url with
  | some u => !u.isEmpty
  | none => false

/-- The `bookmarksToCheck` collection pass: leaves with a truthy URL that
`new URL` accepts; the others are skipped (the `catch` just logs). -/
def bookmarksToCheck (tree : List BNode)
    (urlParse : String → Option Hostname) : List BNode :=
  (traverseCollect tree).filter (fun b =>
    match b.url with
    | some u => !u.isEmpty && (urlParse u).isSome
    | none => false)

/-- The batch loop `for (let i = 0; i < n; i += batchSize)` with
`batchSize = 10`: consecutive slices of at most ten bookmarks. -/
def chunkBatches {β : Type} : List β → List (List β)
  | [] => []
  | x :: xs => (x :: xs).take 10 :: chunkBatches ((x :: xs).drop 10)
termination_by l => l.length
decreasing_by
  simp [List.length_drop]
  omega

/-- One full `checkAllBookmarks` run: each batch is awaited before the next
starts, every callback stores the check's classification under the
bookmark's ID — `false` when the check threw. -/
def runCheckAll (tree : List BNode) (urlParse : String → Option Hostname)
    (check : BNode → Except Unit SiteChecker.SiteStatus) :
    List (String × SiteChecker.SiteStatus) :=
  (chunkBatches (bookmarksToCheck tree urlParse)).foldl
    (fun results batch => batch.foldl
      (fun r b => jsSet r b.id
        (match check b with
         | .ok s => s
         | .error _ => SiteChecker.SiteStatus.failure))
      results)
    []

theorem chunkBatches_flatten {β : Type} (l : List β) :
    (chunkBatches l).flatten = l := by
  have H : ∀ (n : Nat) (l : List β), l.length = n →
      (chunkBatches l).flatten = l := by
    intro n
    induction n using Nat.strong_induction_on with
    | _ n ih =>
      intro l hn
      cases l with
      | nil => rw [chunkBatches]; rfl
      | cons x xs =>
        have hlt : ((x :: xs).drop 10).length < n := by
          rw [List.length_drop, ← hn, List.length_cons]
          omega
        rw [chunkBatches, List.flatten_cons, ih _ hlt _ rfl,
          List.take_append_drop]
  exact H l.length l rfl

theorem chunkBatches_sizes {β : Type} (l : List β) :
    ∀ batch ∈ chunkBatches l, batch ≠ [] ∧ batch.length ≤ 10 := by
  have H : ∀ (n : Nat) (l : List β), l.length = n →
      ∀ batch ∈ chunkBatches l, batch ≠ [] ∧ batch.length ≤ 10 := by
    intro n
    induction n using Nat.strong_induction_on with
    | _ n ih =>
      intro l hn batch hb
      cases l with
      | nil => rw [chunkBatches] at hb; simp at hb
      | cons x xs =>
        have hlt : ((x :: xs).drop 10).length < n := by
          rw [List.length_drop, ← hn, List.length_cons]
          omega
        rw [chunkBatches] at hb
        rcases List.mem_cons.mp hb with h | h
        · subst h
          refine ⟨by simp, ?_⟩
          rw [List.length_take]
          exact min_le_left _ _
        · exact ih _ hlt _ rfl batch h
  exact H l.length l rfl

theorem foldl_jsSet_assoc {β γ : Type} (key : β → String) (g : β → γ) :
    ∀ (bs : List β) (acc : List (String × γ)),
      (∀ b ∈ bs, key b ∉ keysOf acc) → (bs.map key).Nodup →
      bs.foldl (fun r b => jsSet r (key b) (g b)) acc =
        acc ++ bs.map (fun b => (key b, g b)) := by
  intro bs
  induction bs with
  | nil => intro acc _ _; simp
  | cons b rest ih =>
    intro acc hdisj hnd
    rw [List.map_cons, List.nodup_cons] at hnd
    rw [List.foldl_cons,
      ColumnManager.jsSet_append_of_not_mem acc (key b) (g b)
        (hdisj b (List.mem_cons_self b rest)),
      ih (acc ++ [(key b, g b)]) ?_ hnd.2]
    · simp
    · intro b' hb'
      have h1 : key b' ∉ keysOf acc := hdisj b' (List.mem_cons_of_mem b hb')
      have h2 : key b' ≠ key b := by
        intro e
        exact hnd.1 (e ▸ List.mem_map.mpr ⟨b', hb', rfl⟩)
      simp only [keysOf, List.map_append, List.mem_append]
      rintro (hmem | hmem)
      · exact h1 hmem
      · simp at hmem
        exact h2 hmem

/-- C9: `checkAllBookmarks` probes in consecutive batches of at most ten —
the batches are nonempty, at most ten long, and concatenate back to the
collection in order — and the final results map is exactly one entry per
tree bookmark whose URL parses, holding the check's classification, or
`false` for a bookmark whose check threw; bookmarks with unparseable or
missing URLs never appear. -/
theorem checkAllBookmarks_results (tree : List BNode)
    (urlParse : String → Option Hostname)
    (check : BNode → Except Unit SiteChecker.SiteStatus)
    (hnd : ((bookmarksToCheck tree urlParse).map BNode.id).Nodup) :
    (∀ batch ∈ chunkBatches (bookmarksToCheck tree urlParse),
      batch ≠ [] ∧ batch.length ≤ 10) ∧
    (chunkBatches (bookmarksToCheck tree urlParse)).flatten =
      bookmarksToCheck tree urlParse ∧
    runCheckAll tree urlParse check =
      (bookmarksToCheck tree urlParse).map
        (fun b => (b.id,
          match check b with
          | .ok s => s
          | .error _ => SiteChecker.SiteStatus.failure)) := by
  refine ⟨chunkBatches_sizes _, chunkBatches_flatten _, ?_⟩
  unfold runCheckAll
  rw [← List.foldl_flatten, chunkBatches_flatten]
  have := foldl_jsSet_assoc BNode.id
    (fun b => match check b with
      | .ok s => s
      | .error _ => SiteChecker.SiteStatus.failure)
    (bookmarksToCheck tree urlParse) [] (by simp [keysOf]) hnd
  simpa using this

/-- Witness for C9 on a one-folder tree with one parseable and one broken
URL. -/
theorem checkAllBookmarks_results_witness :
    runCheckAll
        [BNode.node "1" none (some
          [BNode.node "10" (some "http://a") none,
            BNode.node "11" (some "bad") none])]
        (fun u => if u = "http://a" then some ("a".toList) else none)
        (fun _ => .ok SiteChecker.SiteStatus.success) =
      [("10", SiteChecker.SiteStatus.success)] := by
  have hb : bookmarksToCheck
      [BNode.node "1" none (some
        [BNode.node "10" (some "http://a") none,
          BNode.node "11" (some "bad") none])]
      (fun u => if u = "http://a" then some ("a".toList) else none) =
      [BNode.node "10" (some "http://a") none] := by
    simp only [bookmarksToCheck, traverseCollect, BNode.url]
    rfl
  have := (checkAllBookmarks_results
    [BNode.node "1" none (some
      [BNode.node "10" (some "http://a") none,
        BNode.node "11" (some "bad") none])]
    (fun u => if u = "http://a" then some ("a".toList) else none)
    (fun _ => .ok SiteChecker.SiteStatus.success)
    (by rw [hb]; decide)).2.2
  rw [this, hb]
  rfl

end Background

end BookmarkKanban
